import Mathlib

/-!
Verification development for the annotation-driven YAML documentation
extractor (helm documentation generator).  The embedding follows the Go
sources: `internal/parser/document.go` is translated directly; the path
model and the comment model live in repository files that are not part of
the provided sources (only `parser/path_test.go` and the call sites in
`document.go` witness them), so those definitions are modelled from the
specification and marked as such in their doc comments.
-/

namespace HelmDocgen

/-! ## Path model -/

/-- Modelled from the spec: character class of property-name characters in
the path grammar, `[a-zA-Z0-9_-]`. -/
def isNameChar (c : Char) : Bool :=
  c.isAlpha || c.isDigit || c = '_' || c = '-'

/-- A single step in a Path: a named property step or a numeric index step.
Constructor names follow the source (`parser/path_test.go`):
`stringPathComponent` and `indexPathComponent`. -/
inductive PathComponent where
  | stringPathComponent (name : String)
  | indexPathComponent (idx : Nat)
deriving DecidableEq

/-- A Path is an ordered sequence of path components; the empty sequence
denotes the root. -/
abbrev Path := List PathComponent

/-- Append a property step (pure). -/
def Path.withProperty (p : Path) (name : String) : Path :=
  p ++ [.stringPathComponent name]

/-- Append an index step (pure). -/
def Path.withIndex (p : Path) (i : Nat) : Path :=
  p ++ [.indexPathComponent i]

/-- Drop the last component; empty input returns empty. -/
def Path.parent (p : Path) : Path :=
  p.dropLast

/-- Fuel-indexed decimal rendering helper (most significant digit first). -/
def toDigitsAux : Nat → Nat → List Char
  | 0, _ => []
  | fuel + 1, n =>
    if n < 10 then [Nat.digitChar n]
    else toDigitsAux fuel (n / 10) ++ [Nat.digitChar (n % 10)]

/-- Decimal digit characters of a natural number. -/
def natChars (n : Nat) : List Char := toDigitsAux (n + 1) n

/-- Modelled from the spec: canonical rendering of the tail of a path.  The
boolean records whether the next property step is the first component of the
whole path (only property steps after the first are dot-prefixed); index
steps are rendered as `[n]`. -/
def Path.renderFrom : Bool → Path → String
  | _, [] => ""
  | isFirst, .stringPathComponent name :: rest =>
    (if isFirst then "" else ".") ++ name ++ Path.renderFrom false rest
  | _, .indexPathComponent i :: rest =>
    "[" ++ String.mk (natChars i) ++ "]" ++ Path.renderFrom false rest

/-- Modelled from the spec: `Path.String()`, the canonical string form. -/
def Path.render (p : Path) : String :=
  Path.renderFrom true p

/-- Numeric value of a decimal digit character. -/
def digitVal (c : Char) : Nat := c.toNat - 48

/-- Parser state for the left-to-right path parser: at the start of the
string, after a completed segment, expecting a property name after a dot,
inside a property name, or inside an index (with the digits read so far). -/
inductive PMode where
  | start
  | afterSeg
  | expectName
  | inName (acc : List Char)
  | inIndex (acc : Option Nat)

/-- Modelled from the spec: the left-to-right, greedy path parser.  It
consumes the longest valid segment at each position; on a character that
matches neither grammar rule it fails with a syntax error (`true` in the
second component) but still returns the components successfully parsed so
far. -/
def runP : List Char → PMode → Path × Bool
  | [], .start => ([], false)
  | [], .afterSeg => ([], false)
  | [], .expectName => ([], true)
  | [], .inName acc => ([.stringPathComponent (String.mk acc)], false)
  | [], .inIndex _ => ([], true)
  | c :: cs, .start =>
    if isNameChar c then runP cs (.inName [c])
    else if c = '[' then runP cs (.inIndex none)
    else if c = '.' then runP cs .expectName
    else ([], true)
  | c :: cs, .afterSeg =>
    if c = '.' then runP cs .expectName
    else if c = '[' then runP cs (.inIndex none)
    else ([], true)
  | c :: cs, .expectName =>
    if isNameChar c then runP cs (.inName [c])
    else ([], true)
  | c :: cs, .inName acc =>
    if isNameChar c then runP cs (.inName (acc ++ [c]))
    else if c = '.' then
      let r := runP cs .expectName
      (.stringPathComponent (String.mk acc) :: r.1, r.2)
    else if c = '[' then
      let r := runP cs (.inIndex none)
      (.stringPathComponent (String.mk acc) :: r.1, r.2)
    else ([.stringPathComponent (String.mk acc)], true)
  | c :: cs, .inIndex acc =>
    if c.isDigit then runP cs (.inIndex (some (10 * acc.getD 0 + digitVal c)))
    else if c = ']' then
      match acc with
      | some v =>
        let r := runP cs .afterSeg
        (.indexPathComponent v :: r.1, r.2)
      | none => ([], true)
    else ([], true)

/-- Modelled from the spec: `ParsePath` parses the dotted/indexed path
syntax; the boolean is `true` exactly when a syntax error occurred, and the
path returned on error holds the components parsed before the error. -/
def ParsePath (s : String) : Path × Bool :=
  runP s.data .start

/-- Validity of a path for unambiguous rendering: every property step has a
nonempty name made of name characters. -/
def validPath (p : Path) : Bool :=
  p.all fun comp =>
    match comp with
    | .stringPathComponent s => !s.data.isEmpty && s.data.all isNameChar
    | .indexPathComponent _ => true

/-! ## String helpers

Character-list implementations of the string primitives the models need
(split, trim, starts-with), so that every definition evaluates inside the
kernel. -/

/-- Split a character list at every occurrence of a separator character;
mirrors `strings.Split` (a trailing separator yields a final empty part). -/
def splitChar (sep : Char) : List Char → List (List Char)
  | [] => [[]]
  | c :: cs =>
    if c = sep then [] :: splitChar sep cs
    else
      match splitChar sep cs with
      | h :: t => (c :: h) :: t
      | [] => [[c]]

/-- Split a string at a separator character. -/
def strSplitChar (sep : Char) (s : String) : List String :=
  (splitChar sep s.data).map String.mk

/-- Split a character list at every occurrence of a two-character
separator. -/
def splitSeq2 (a b : Char) : List Char → List (List Char)
  | [] => [[]]
  | [c] => [[c]]
  | c :: d :: cs =>
    if c = a && d = b then
      match splitSeq2 a b cs with
      | parts => [] :: parts
    else
      match splitSeq2 a b (d :: cs) with
      | h :: t => (c :: h) :: t
      | [] => [[c]]

/-- Trim ASCII whitespace from both ends of a string; mirrors
`strings.TrimSpace`. -/
def strTrim (s : String) : String :=
  String.mk (((s.data.dropWhile Char.isWhitespace).reverse.dropWhile
    Char.isWhitespace).reverse)

/-- Whether a string starts with the given text. -/
def strStartsWith (s pre : String) : Bool :=
  pre.data.isPrefixOf s.data

/-! ## Comment model

The comment parser lives in a repository file that is not among the
provided sources; only its call sites in `document.go` are.  The
definitions below are therefore modelled from the specification (spec
sections 3 and 4.2). -/

/-- Directive tag constants (document.go lines 11-17). -/
def TagSection : String := "docs:section"

/-- Directive tag for skipping a subtree. -/
def TagIgnore : String := "docs:ignore"

/-- Directive tag for an explicit property type. -/
def TagType : String := "docs:type"

/-- Directive tag for an explicit default value. -/
def TagDefault : String := "docs:default"

/-- Directive tag marking a property. -/
def TagProperty : String := "docs:property"

/-- Kind of a comment content segment. -/
inductive CommentType where
  | text
  | code
deriving DecidableEq

/-- One content segment of a comment: prose text or a fenced code block. -/
structure CommentSection where
  type : CommentType
  content : String
deriving DecidableEq

/-- Modelled from the spec: the directive-tag bag of a comment, a mapping
from directive name to string value. -/
structure Tags where
  entries : List (String × String)
deriving DecidableEq

/-- Modelled from the spec: look up a directive value by name. -/
def Tags.find (t : Tags) (k : String) : Option String :=
  (t.entries.find? fun e => e.1 == k).map (·.2)

/-- Modelled from the spec: a directive present with no value (or any value
other than the literal "false") is queried as boolean true; an absent
directive is false. -/
def Tags.GetBool (t : Tags) (k : String) : Bool :=
  match Tags.find t k with
  | none => false
  | some v => v != "false"

/-- Modelled from the spec: the literal directive value, or the empty
string when the directive is unset or boolean-only. -/
def Tags.GetString (t : Tags) (k : String) : String :=
  (Tags.find t k).getD ""

/-- A parsed comment block: directive tags plus ordered content segments. -/
structure Comment where
  tags : Tags
  sections : List CommentSection
deriving DecidableEq

/-- An ordered sequence of parsed comment blocks. -/
abbrev Comments := List Comment

/-- Modelled from the spec: remove and return the first comment (a zero
comment when empty), together with the remaining comments — the Go `Pop`
mutates its receiver to the remainder. -/
def Comments.pop : Comments → Comment × Comments
  | [] => (⟨⟨[]⟩, []⟩, [])
  | c :: rest => (c, rest)

/-- Rendering of one comment segment for description text (code segments
are re-fenced). -/
def CommentSection.render (s : CommentSection) : String :=
  match s.type with
  | .text => s.content
  | .code => "```\n" ++ s.content ++ "\n```"

/-- Modelled from the spec: `Comment.String()`, the rendered description
text of a comment. -/
def Comment.render (c : Comment) : String :=
  String.intercalate "\n" (c.sections.map CommentSection.render)

/-- Split a directive line `+key=value` (value optional) into key/value. -/
def parseTagLine (line : String) : String × String :=
  let body := (strTrim line).drop 1
  match strSplitChar '=' body with
  | key :: rest => (key, String.intercalate "=" rest)
  | [] => (body, "")

/-- State of the modelled line-by-line comment text parser. -/
structure CPState where
  done : List Comment
  tags : List (String × String)
  secs : List CommentSection
  textAcc : List String
  codeAcc : Option (List String)

/-- Flush pending text lines into a text segment. -/
def flushTextCP (st : CPState) : CPState :=
  match st.textAcc with
  | [] => st
  | ls => { st with
      secs := st.secs ++ [⟨.text, String.intercalate "\n" ls⟩]
      textAcc := [] }

/-- Flush a pending fenced block into a code segment. -/
def flushCodeCP (st : CPState) : CPState :=
  match st.codeAcc with
  | none => st
  | some ls => { st with
      secs := st.secs ++ [⟨.code, String.intercalate "\n" ls⟩]
      codeAcc := none }

/-- Finish the current comment block, emitting it if nonempty. -/
def flushCommentCP (st : CPState) : CPState :=
  let st := flushCodeCP (flushTextCP st)
  if st.tags.isEmpty && st.secs.isEmpty then st
  else { done := st.done ++ [⟨⟨st.tags⟩, st.secs⟩], tags := [], secs := [],
         textAcc := [], codeAcc := none }

/-- Process one line of comment text. -/
def stepCP (st : CPState) (line : String) : CPState :=
  match st.codeAcc with
  | some ls =>
    if strTrim line = "```" then flushCodeCP st
    else { st with codeAcc := some (ls ++ [line]) }
  | none =>
    if strTrim line = "" then flushCommentCP st
    else if strTrim line = "```" then { flushTextCP st with codeAcc := some [] }
    else if strStartsWith (strTrim line) "+docs:" then
      { flushTextCP st with tags := st.tags ++ [parseTagLine line] }
    else { st with textAcc := st.textAcc ++ [line] }

/-- Modelled from the spec: `ParseComment` splits raw comment text (markers
already stripped) into blocks at blank lines; within a block, `+docs:...`
lines populate the tags and the remaining lines are grouped into text
segments and fenced code segments in source order. -/
def ParseComment (s : String) : Comments :=
  if s.isEmpty then []
  else (flushCommentCP ((strSplitChar '\n' s).foldl stepCP ⟨[], [], [], [], none⟩)).done

/-! ## YAML node model (the decoded tree handed to the walker) -/

/-- The node kinds of the yaml library. -/
inductive Kind where
  | documentNode
  | sequenceNode
  | mappingNode
  | scalarNode
  | aliasNode
deriving DecidableEq

/-- A decoded yaml node: kind, resolved tag, scalar value, attached raw
comment text, children in order, and (for aliases) the resolved target.
This is the tree form; a cyclic alias graph is modelled separately
(see `GNode`). -/
inductive RawNode : Type where
  | node (kind : Kind) (tag value headComment footComment : String)
      (content : List RawNode) (aliasTarget : Option RawNode) : RawNode

/-- Node kind accessor. -/
def RawNode.kind : RawNode → Kind
  | .node k _ _ _ _ _ _ => k

/-- Resolved tag accessor. -/
def RawNode.tag : RawNode → String
  | .node _ t _ _ _ _ _ => t

/-- Scalar value accessor. -/
def RawNode.value : RawNode → String
  | .node _ _ v _ _ _ _ => v

/-- Raw head comment accessor. -/
def RawNode.headComment : RawNode → String
  | .node _ _ _ h _ _ _ => h

/-- Raw foot comment accessor. -/
def RawNode.footComment : RawNode → String
  | .node _ _ _ _ f _ _ => f

/-- Children accessor. -/
def RawNode.content : RawNode → List RawNode
  | .node _ _ _ _ _ c _ => c

/-- Alias target accessor. -/
def RawNode.aliasTarget : RawNode → Option RawNode
  | .node _ _ _ _ _ _ a => a

/-- Modelled behavior of the yaml library's `ShortTag`: decoded nodes carry
resolved short tags; with an empty tag the collection kinds resolve to
their default tags. -/
def RawNode.shortTag (r : RawNode) : String :=
  if r.tag ≠ "" then r.tag
  else
    match r.kind with
    | .sequenceNode => "!!seq"
    | .mappingNode => "!!map"
    | _ => ""

mutual

/-- Number of nodes in a tree (an upper bound on its depth, used as fuel
for the modelled re-encoder). -/
def rawSize : RawNode → Nat
  | .node _ _ _ _ _ content al =>
    1 + rawListSize content +
      (match al with
       | some t => rawSize t
       | none => 0)

/-- Total node count of a list of trees. -/
def rawListSize : List RawNode → Nat
  | [] => 0
  | c :: cs => rawSize c + rawListSize cs

end

/-- Mapping entries, pairwise, comma separated, rendered with a given
element encoder. -/
def yamlReencodePairs (enc : RawNode → String) : List RawNode → String
  | k :: v :: rest =>
    enc k ++ ": " ++ enc v ++ (if rest.isEmpty then "" else ", ") ++
      yamlReencodePairs enc rest
  | _ => ""

/-- Fuel-indexed body of the modelled re-encoder; the fuel only serves to
make the recursion structural and is always sufficient at the wrapper's
call site. -/
def yamlReencodeF : Nat → RawNode → String
  | 0, _ => ""
  | fuel + 1, r =>
    match r.kind with
    | .scalarNode => r.value
    | .sequenceNode =>
      if r.content.isEmpty then "[]"
      else "[" ++ String.intercalate ", " (r.content.map (yamlReencodeF fuel)) ++ "]"
    | .mappingNode =>
      if r.content.isEmpty then "\x7b\x7d"
      else "\x7b" ++ yamlReencodePairs (yamlReencodeF fuel) r.content ++ "\x7d"
    | .documentNode =>
      match r.content with
      | c :: _ => yamlReencodeF fuel c
      | [] => ""
    | .aliasNode =>
      match r.aliasTarget with
      | some t => yamlReencodeF fuel t
      | none => ""

/-- Modelled from the spec: stands in for the external yaml pipeline used
by getDefaultValue — decode the node to a generic value and re-encode it
canonically with the encoder's fixed 2-space indent.  Aliases are resolved,
a document renders its first child; no theorem depends on the exact text
shape produced here. -/
def yamlReencode (r : RawNode) : String :=
  yamlReencodeF (rawSize r) r

/-- Modelled scalar-tag resolution for the modelled `yamlUnmarshal`. -/
def resolveScalarTag (v : String) : String :=
  if v = "true" || v = "false" then "!!bool"
  else if !v.isEmpty && v.data.all Char.isDigit then "!!int"
  else "!!str"

/-- Modelled from the spec: stands in for the external yaml library's
`Unmarshal` of an embedded code block into a node tree.  It supports the
single-line single-key mapping shape `name: value` that the
synthetic-property inference consumes; any other input yields a document
whose first child is not a single-key mapping (or an empty document), which
the caller treats as a failed parse. -/
def yamlUnmarshal (s : String) : RawNode :=
  let t := strTrim s
  if t.isEmpty then .node .documentNode "" "" "" "" [] none
  else
    match (splitSeq2 ':' ' ' t.data).map String.mk with
    | [k, v] =>
      if (k.data.all fun c => c ≠ '\n') && (v.data.all fun c => c ≠ '\n') then
        .node .documentNode "" "" "" ""
          [.node .mappingNode "!!map" "" "" ""
            [.node .scalarNode "!!str" k "" "" [] none,
             .node .scalarNode (resolveScalarTag v) v "" "" [] none] none] none
      else .node .documentNode "" "" "" ""
        [.node .scalarNode "!!str" t "" "" [] none] none
    | _ => .node .documentNode "" "" "" ""
      [.node .scalarNode "!!str" t "" "" [] none] none

/-! ## Document model (document.go) -/

/-- The walker-internal node (document.go lines 167-172): current path,
attached parsed comments, and a possibly absent reference into the decoded
tree (`RawNode` is a nil-able pointer in the source). -/
structure Node where
  path : Path := []
  headComments : Comments := []
  footComment : Comments := []
  rawNode : Option RawNode := none

/-- A documented property (document.go lines 29-34). -/
structure Property where
  name : String
  description : Comment
  type : String
  default : String
deriving DecidableEq

/-- A named group of properties (document.go lines 23-27). -/
structure Section where
  name : String := ""
  description : String := ""
  properties : List Property := []
deriving DecidableEq

/-- The output document (document.go lines 19-21). -/
structure Document where
  sections : List Section
deriving DecidableEq

/-- End-node classification (document.go lines 252-267), in the source's
switch order: a document node never; a scalar always; a node whose
directive comment has docs:property true regardless of shape; an empty
mapping or sequence; everything else not.  A missing raw node is classified
false here; the walk never produces one (the Go code would dereference a
nil pointer). -/
def isEndNode (n : Node) (c : Comment) : Bool :=
  match n.rawNode with
  | none => false
  | some r =>
    if r.kind = .documentNode then false
    else if r.kind = .scalarNode then true
    else if Tags.GetBool c.tags TagProperty then true
    else if r.kind = .mappingNode then r.content.isEmpty
    else if r.kind = .sequenceNode then r.content.isEmpty
    else false

/-- Type inference (document.go lines 288-315): an explicit docs:type tag
value wins; otherwise the type is read off the raw node's resolved short
tag, with unknown for a missing raw node or an unrecognized tag. -/
def getTypeOf (node : Node) (comment : Comment) : String :=
  let typ := Tags.GetString comment.tags TagType
  if typ ≠ "" then typ
  else
    match node.rawNode with
    | none => "unknown"
    | some r =>
      match r.shortTag with
      | "!!bool" => "bool"
      | "!!str" => "string"
      | "!!int" => "number"
      | "!!float" => "number"
      | "!!timestamp" => "timestamp"
      | "!!seq" => "array"
      | "!!map" => "object"
      | _ => "unknown"

/-- Default-value computation (document.go lines 269-286): an explicit
docs:default tag value wins; otherwise the raw node's decoded value is
re-encoded (2-space indent) and trimmed of surrounding whitespace.  A
missing raw node yields "" here; the walk never produces one. -/
def getDefaultValue (n : Node) (c : Comment) : String :=
  let d := Tags.GetString c.tags TagDefault
  if d ≠ "" then d
  else
    match n.rawNode with
    | none => ""
    | some r => strTrim (yamlReencode r)

/-- Apply f to the last element of a list (empty list unchanged). -/
def modifyLast (f : Section → Section) : List Section → List Section
  | [] => []
  | [s] => [f s]
  | s :: rest => s :: modifyLast f rest

/-- Append a property to the most recently opened section, mirroring
`document.Sections[len(document.Sections)-1].Properties = append(...)`. -/
def appendPropertyLast (doc : Document) (p : Property) : Document :=
  ⟨modifyLast (fun s => { s with properties := s.properties ++ [p] }) doc.sections⟩

/-- The loop in document.go lines 97-102: scan the comment's segments,
recording the index of each Code segment in turn; the survivor is the index
of the last Code segment. -/
def codeIdxOf (secs : List CommentSection) : Option Nat :=
  secs.enum.foldl (fun acc is => if is.2.type = .code then some is.1 else acc) none

/-- The code-block inference of the docs:property branch (document.go lines
96-142): take the recorded code segment, parse it, and if the result is a
document whose first node is a mapping with exactly one key/value pair,
return the synthetic node (forwarding path extended with the key, raw node
= the value node) and the comment with that code segment removed; otherwise
return a synthetic node with empty path and no raw node, and the comment
unchanged. -/
def syntheticParse (path : Path) (comment : Comment) : Node × Comment :=
  let parsedNode : Node := { headComments := [comment] }
  match codeIdxOf comment.sections with
  | none => (parsedNode, comment)
  | some codeIdx =>
    let codeSection := comment.sections.getD codeIdx ⟨.text, ""⟩
    let node := yamlUnmarshal codeSection.content
    match node.content with
    | first :: _ =>
      if first.kind = .mappingNode then
        match first.content with
        | [keyNode, valueNode] =>
          ({ parsedNode with
              path := Path.withProperty path keyNode.value,
              rawNode := some valueNode },
           { tags := comment.tags, sections := comment.sections.eraseIdx codeIdx })
        | _ => (parsedNode, comment)
      else (parsedNode, comment)
    | [] => (parsedNode, comment)

/-- One iteration of the loop body of parseCommentsOntoDocument
(document.go lines 87-164): a docs:section comment opens a new section; a
docs:property comment becomes a synthetic property whose name is the
directive's explicit value if nonempty, else the path parsed from the code
segment; when neither yields a name the comment is dropped (the Go code
logs and continues). -/
def commentStep (path : Path) (document : Document) (comment : Comment) :
    Document :=
  if Tags.GetBool comment.tags TagSection then
    ⟨document.sections ++
      [{ name := Tags.GetString comment.tags TagSection,
         description := Comment.render comment }]⟩
  else if Tags.GetBool comment.tags TagProperty then
    let pc := syntheticParse path comment
    let parsedNode := pc.1
    let comment := pc.2
    let name0 := Tags.GetString comment.tags TagProperty
    let name := if name0 = "" then Path.render parsedNode.path else name0
    if name = "" then document
    else
      appendPropertyLast document
        { name := name, description := comment,
          type := getTypeOf parsedNode comment, default := "undefined" }
  else document

/-- parseCommentsOntoDocument (document.go lines 86-165). -/
def parseCommentsOntoDocument (path : Path) (document : Document)
    (comments : Comments) : Document :=
  comments.foldl (commentStep path) document

/-- The per-node callback Load passes to walk (document.go lines 53-81):
pop the first head comment, forward the remaining head comments to the
parent path, obey docs:ignore, forward the popped comment for non-end
nodes, append a property to the last section for end nodes; the deferred
call forwards the foot comments before returning in every branch.  The
error component is always none: the callback never fails. -/
def loadStep (node : Node) (document : Document) :
    (Bool × Document) × Option String :=
  let pc := Comments.pop node.headComments
  let comment := pc.1
  let document := parseCommentsOntoDocument (Path.parent node.path) document pc.2
  if Tags.GetBool comment.tags TagIgnore then
    ((true, parseCommentsOntoDocument (Path.parent node.path) document
        node.footComment), none)
  else if ! isEndNode node comment then
    let document :=
      parseCommentsOntoDocument (Path.parent node.path) document [comment]
    ((false, parseCommentsOntoDocument (Path.parent node.path) document
        node.footComment), none)
  else
    let document := appendPropertyLast document
      { name := Path.render node.path, description := comment,
        type := getTypeOf node comment, default := getDefaultValue node comment }
    ((true, parseCommentsOntoDocument (Path.parent node.path) document
        node.footComment), none)

mutual

/-- Depth-first walk (document.go lines 174-244), uncurried over the Node
fields so that the recursion is structural over the decoded tree; the Node
the callback sees is ⟨p, heads, foot, some r⟩.  The callback runs first and
can stop the branch or abort with an error; otherwise the walk descends
according to the node kind. -/
def walk (p : Path) (heads foot : Comments) (r : RawNode)
    (fn : Node → Document → (Bool × Document) × Option String)
    (doc : Document) : Document × Option String :=
  match fn ⟨p, heads, foot, some r⟩ doc with
  | ((_, doc), some e) => (doc, some e)
  | ((true, doc), none) => (doc, none)
  | ((false, doc), none) =>
    match r with
    | .node kind _ _ h f content al =>
      match kind with
      | .sequenceNode => walkSeq p h f fn 0 content doc
      | .mappingNode => walkMap p fn content doc
      | .documentNode => walkDoc p fn content doc
      | .aliasNode =>
        match al with
        | some t => walk p (ParseComment h) (ParseComment f) t fn doc
        | none => (doc, none)
      | .scalarNode => (doc, none)

/-- Sequence descent (document.go lines 188-200): each element becomes a
child node with an index step, carrying comments parsed from the sequence
node's own comment text. -/
def walkSeq (p : Path) (h f : String)
    (fn : Node → Document → (Bool × Document) × Option String)
    (i : Nat) (l : List RawNode) (doc : Document) : Document × Option String :=
  match l with
  | [] => (doc, none)
  | c :: cs =>
    match walk (Path.withIndex p i) (ParseComment h) (ParseComment f) c fn doc with
    | (doc, some e) => (doc, some e)
    | (doc, none) => walkSeq p h f fn (i + 1) cs doc

/-- Mapping descent (document.go lines 201-216): content is consumed
pairwise; each value becomes a child node with a property step named by the
key, carrying the key node's comments. -/
def walkMap (p : Path)
    (fn : Node → Document → (Bool × Document) × Option String)
    (l : List RawNode) (doc : Document) : Document × Option String :=
  match l with
  | keyNode :: valueNode :: rest =>
    match walk (Path.withProperty p keyNode.value)
        (ParseComment keyNode.headComment) (ParseComment keyNode.footComment)
        valueNode fn doc with
    | (doc, some e) => (doc, some e)
    | (doc, none) => walkMap p fn rest doc
  | _ => (doc, none)

/-- Document descent (document.go lines 217-229): top-level children are
visited with the same, unextended path and their own comments. -/
def walkDoc (p : Path)
    (fn : Node → Document → (Bool × Document) × Option String)
    (l : List RawNode) (doc : Document) : Document × Option String :=
  match l with
  | [] => (doc, none)
  | c :: cs =>
    match walk p (ParseComment c.headComment) (ParseComment c.footComment)
        c fn doc with
    | (doc, some e) => (doc, some e)
    | (doc, none) => walkDoc p fn cs doc

end

/-- Load (document.go lines 36-84), after the external file-open and yaml
decode: build the initial document with one zero section and walk the root
node; the document is returned together with the walk error, as the Go code
returns `&document, err`. -/
def Load (root : RawNode) : Document × Option String :=
  let document : Document := ⟨[{}]⟩
  walk [] (ParseComment root.headComment) (ParseComment root.footComment)
    root loadStep document

/-! ## Child-node construction, factored out for statement purposes -/

/-- The child nodes of a sequence node: index steps, comments parsed from
the sequence node's own raw comment text. -/
def seqChildren (p : Path) (h f : String) : Nat → List RawNode → List Node
  | _, [] => []
  | i, c :: cs =>
    ⟨Path.withIndex p i, ParseComment h, ParseComment f, some c⟩ ::
      seqChildren p h f (i + 1) cs

/-- The child nodes of a mapping node: property steps named by the keys,
comments parsed from each key node's raw comment text. -/
def mapChildren (p : Path) : List RawNode → List Node
  | keyNode :: valueNode :: rest =>
    ⟨Path.withProperty p keyNode.value, ParseComment keyNode.headComment,
      ParseComment keyNode.footComment, some valueNode⟩ :: mapChildren p rest
  | _ => []

/-- The child nodes of a document node: same path, own comments. -/
def docChildren (p : Path) : List RawNode → List Node
  | [] => []
  | c :: cs =>
    ⟨p, ParseComment c.headComment, ParseComment c.footComment, some c⟩ ::
      docChildren p cs

/-- The single child of an alias node: the resolved target under the same
path, with the alias node's comments. -/
def aliasChildren (p : Path) (r : RawNode) : List Node :=
  match r.aliasTarget with
  | some t => [⟨p, ParseComment r.headComment, ParseComment r.footComment, some t⟩]
  | none => []

/-- The child Nodes the walk descends into, by node kind. -/
def childNodes (n : Node) : List Node :=
  match n.rawNode with
  | none => []
  | some r =>
    match r.kind with
    | .sequenceNode => seqChildren n.path r.headComment r.footComment 0 r.content
    | .mappingNode => mapChildren n.path r.content
    | .documentNode => docChildren n.path r.content
    | .aliasNode => aliasChildren n.path r
    | .scalarNode => []

/-- Sequential walk over a list of nodes with one step function, stopping
at the first error. -/
def walkList (step : Node → Document → Document × Option String) :
    List Node → Document → Document × Option String
  | [], doc => (doc, none)
  | c :: cs, doc =>
    match step c doc with
    | (doc, some e) => (doc, some e)
    | (doc, none) => walkList step cs doc

/-- The walk entered at a packaged Node (no children when the raw node is
absent, where the Go code would dereference nil). -/
def walkNode (fn : Node → Document → (Bool × Document) × Option String)
    (n : Node) (doc : Document) : Document × Option String :=
  match n.rawNode with
  | some r => walk n.path n.headComments n.footComment r fn doc
  | none => (doc, none)

/-! ## Section-free trees (for the single-section invariant) -/

/-- No comment of the list carries a docs:section directive. -/
def commentsNoSec (cs : Comments) : Bool :=
  cs.all fun c => ! Tags.GetBool c.tags TagSection

mutual

/-- No comment text anywhere in the tree parses to a comment carrying a
docs:section directive. -/
def rawNoSec : RawNode → Bool
  | .node _ _ _ h f content al =>
    commentsNoSec (ParseComment h) && commentsNoSec (ParseComment f) &&
      rawListNoSec content &&
      (match al with
       | some t => rawNoSec t
       | none => true)

/-- List form of rawNoSec. -/
def rawListNoSec : List RawNode → Bool
  | [] => true
  | c :: cs => rawNoSec c && rawListNoSec cs

end

/-- Section-freeness of a packaged walker node. -/
def nodeNoSec (n : Node) : Bool :=
  commentsNoSec n.headComments && commentsNoSec n.footComment &&
    (match n.rawNode with
     | some r => rawNoSec r
     | none => true)

/-! ## Pointer-graph form of the walk

The Go yaml library returns nodes linked by pointers; through aliases the
node graph can be cyclic, which the tree type `RawNode` cannot represent.
`GNode` is the same data with children and the alias target as indices
into an environment, and `walkG` is the same walk algorithm, indexed by
fuel so that non-termination on a cyclic graph is observable: a `none`
result means the walk is still running when the fuel runs out. -/

/-- A raw node in pointer-graph form. -/
structure GNode where
  kind : Kind
  tag : String := ""
  value : String := ""
  headComment : String := ""
  footComment : String := ""
  content : List Nat := []
  aliasTarget : Option Nat := none

/-- The walker-internal node over the graph form. -/
structure NodeG where
  path : Path := []
  headComments : Comments := []
  footComment : Comments := []
  rawIdx : Option Nat := none

/-- Out-of-range indices resolve to a zero scalar node (unreachable for
well-formed environments). -/
def defaultGNode : GNode := { kind := .scalarNode }

/-- Short tag of a graph node, as RawNode.shortTag. -/
def GNode.shortTag (g : GNode) : String :=
  if g.tag ≠ "" then g.tag
  else
    match g.kind with
    | .sequenceNode => "!!seq"
    | .mappingNode => "!!map"
    | _ => ""

/-- isEndNode over the graph form (document.go lines 252-267). -/
def isEndNodeG (env : List GNode) (n : NodeG) (c : Comment) : Bool :=
  match n.rawIdx with
  | none => false
  | some idx =>
    let g := env.getD idx defaultGNode
    if g.kind = .documentNode then false
    else if g.kind = .scalarNode then true
    else if Tags.GetBool c.tags TagProperty then true
    else if g.kind = .mappingNode then g.content.isEmpty
    else if g.kind = .sequenceNode then g.content.isEmpty
    else false

/-- getTypeOf over the graph form (document.go lines 288-315). -/
def getTypeOfG (env : List GNode) (node : NodeG) (comment : Comment) : String :=
  let typ := Tags.GetString comment.tags TagType
  if typ ≠ "" then typ
  else
    match node.rawIdx with
    | none => "unknown"
    | some idx =>
      match (env.getD idx defaultGNode).shortTag with
      | "!!bool" => "bool"
      | "!!str" => "string"
      | "!!int" => "number"
      | "!!float" => "number"
      | "!!timestamp" => "timestamp"
      | "!!seq" => "array"
      | "!!map" => "object"
      | _ => "unknown"

/-- Fuel-bounded re-encoding over the graph form (document.go lines
269-286); on a cyclic value the underlying library computation would not
terminate either, so the fuel is a modelling device only. -/
def yamlReencodeG (env : List GNode) : Nat → Nat → String
  | 0, _ => ""
  | fuel + 1, idx =>
    let g := env.getD idx defaultGNode
    match g.kind with
    | .scalarNode => g.value
    | .sequenceNode =>
      if g.content.isEmpty then "[]"
      else "[" ++ String.intercalate ", " (g.content.map (yamlReencodeG env fuel)) ++ "]"
    | .mappingNode =>
      if g.content.isEmpty then "\x7b\x7d"
      else "\x7b" ++ String.intercalate ", " (g.content.map (yamlReencodeG env fuel)) ++ "\x7d"
    | .documentNode =>
      match g.content with
      | c :: _ => yamlReencodeG env fuel c
      | [] => ""
    | .aliasNode =>
      match g.aliasTarget with
      | some t => yamlReencodeG env fuel t
      | none => ""

/-- getDefaultValue over the graph form (document.go lines 269-286). -/
def getDefaultValueG (env : List GNode) (n : NodeG) (c : Comment) : String :=
  let d := Tags.GetString c.tags TagDefault
  if d ≠ "" then d
  else
    match n.rawIdx with
    | none => ""
    | some idx => strTrim (yamlReencodeG env (env.length + 1) idx)

/-- The Load callback over the graph form (document.go lines 53-81),
identical in structure to loadStep. -/
def loadStepG (env : List GNode) (node : NodeG) (document : Document) :
    (Bool × Document) × Option String :=
  let pc := Comments.pop node.headComments
  let comment := pc.1
  let document := parseCommentsOntoDocument (Path.parent node.path) document pc.2
  if Tags.GetBool comment.tags TagIgnore then
    ((true, parseCommentsOntoDocument (Path.parent node.path) document
        node.footComment), none)
  else if ! isEndNodeG env node comment then
    let document :=
      parseCommentsOntoDocument (Path.parent node.path) document [comment]
    ((false, parseCommentsOntoDocument (Path.parent node.path) document
        node.footComment), none)
  else
    let document := appendPropertyLast document
      { name := Path.render node.path, description := comment,
        type := getTypeOfG env node comment,
        default := getDefaultValueG env node comment }
    ((true, parseCommentsOntoDocument (Path.parent node.path) document
        node.footComment), none)

mutual

/-- The walk of document.go lines 174-244 over the pointer-graph form,
bounded by fuel: `none` means the fuel ran out with the walk still
descending; `some (doc, err)` means the walk returned.  One unit of fuel is
spent per nesting level. -/
def walkG (env : List GNode)
    (fn : NodeG → Document → (Bool × Document) × Option String) :
    Nat → Path → Comments → Comments → Nat → Document →
    Option (Document × Option String)
  | 0, _, _, _, _, _ => none
  | fuel + 1, p, heads, foot, idx, doc =>
    match fn ⟨p, heads, foot, some idx⟩ doc with
    | ((_, doc), some e) => some (doc, some e)
    | ((true, doc), none) => some (doc, none)
    | ((false, doc), none) =>
      let g := env.getD idx defaultGNode
      match g.kind with
      | .sequenceNode =>
        walkGList env fn fuel
          (g.content.enum.map fun ic =>
            (⟨Path.withIndex p ic.1, ParseComment g.headComment,
              ParseComment g.footComment, some ic.2⟩ : NodeG)) doc
      | .mappingNode => walkGMap env fn fuel p g.content doc
      | .documentNode =>
        walkGList env fn fuel
          (g.content.map fun c =>
            (⟨p, ParseComment (env.getD c defaultGNode).headComment,
              ParseComment (env.getD c defaultGNode).footComment, some c⟩ : NodeG)) doc
      | .aliasNode =>
        match g.aliasTarget with
        | some t =>
          walkG env fn fuel p (ParseComment g.headComment)
            (ParseComment g.footComment) t doc
        | none => some (doc, none)
      | .scalarNode => some (doc, none)

/-- Sequential graph walk over prepared child nodes. -/
def walkGList (env : List GNode)
    (fn : NodeG → Document → (Bool × Document) × Option String)
    (fuel : Nat) (l : List NodeG) (doc : Document) :
    Option (Document × Option String) :=
  match l with
  | [] => some (doc, none)
  | c :: cs =>
    match c.rawIdx with
    | none => walkGList env fn fuel cs doc
    | some idx =>
      match walkG env fn fuel c.path c.headComments c.footComment idx doc with
      | none => none
      | some (doc, some e) => some (doc, some e)
      | some (doc, none) => walkGList env fn fuel cs doc

/-- Pairwise mapping descent over the graph form. -/
def walkGMap (env : List GNode)
    (fn : NodeG → Document → (Bool × Document) × Option String)
    (fuel : Nat) (p : Path) (l : List Nat) (doc : Document) :
    Option (Document × Option String) :=
  match l with
  | keyIdx :: valueIdx :: rest =>
    let keyNode := env.getD keyIdx defaultGNode
    match walkG env fn fuel (Path.withProperty p keyNode.value)
        (ParseComment keyNode.headComment) (ParseComment keyNode.footComment)
        valueIdx doc with
    | none => none
    | some (doc, some e) => some (doc, some e)
    | some (doc, none) => walkGMap env fn fuel p rest doc
  | _ => some (doc, none)

end

/-- A two-node cyclic alias graph: node 0 is a sequence whose only element
is node 1, an alias whose target is node 0 — the graph the yaml source
`a: &a [*a]` produces for the anchored sequence. -/
def cyclicEnv : List GNode :=
  [{ kind := .sequenceNode, tag := "!!seq", content := [1] },
   { kind := .aliasNode, aliasTarget := some 0 }]

/-! ## Statement-support definitions and concrete instances -/

/-- Index of the last code segment of a list, written directly as a
recursive scan (the specification side of the C2 comparison). -/
def lastCodeIdxSpec : List CommentSection → Option Nat
  | [] => none
  | s :: rest =>
    match lastCodeIdxSpec rest with
    | some i => some (i + 1)
    | none => if s.type = .code then some 0 else none

/-- The key nodes of a mapping content list (every even position that has a
successor). -/
def mapPairKeys : List RawNode → List RawNode
  | keyNode :: _ :: rest => keyNode :: mapPairKeys rest
  | _ => []

/-- Size measure of a walker node, for induction over the walk. -/
def nodeMeasure (n : Node) : Nat :=
  match n.rawNode with
  | none => 0
  | some r => rawSize r

/-- A comment with docs:property set, two code segments and a text segment
between them (used to compare first-segment and last-segment selection). -/
def exComment2 : Comment :=
  ⟨⟨[("docs:property", "")]⟩, [⟨.code, "a: 1"⟩, ⟨.text, "hi"⟩, ⟨.code, "b: 2"⟩]⟩

/-- A comment carrying both an explicit docs:property value and a parseable
single-key code segment (used to test the name precedence). -/
def exComment3 : Comment :=
  ⟨⟨[("docs:property", "explicit.name")]⟩, [⟨.code, "foo: 1"⟩]⟩

/-- A mapping raw node with one scalar entry. -/
def exMapRaw : RawNode :=
  .node .mappingNode "!!map" "" "" ""
    [.node .scalarNode "!!str" "k" "" "" [] none,
     .node .scalarNode "!!int" "7" "" "" [] none] none

/-- A walker node whose first head comment carries docs:ignore and whose
remaining head comment carries a docs:section directive. -/
def exIgnoreNode : Node :=
  { path := [.stringPathComponent "a"]
    headComments := [⟨⟨[("docs:ignore", "")]⟩, []⟩,
                     ⟨⟨[("docs:section", "S")]⟩, [⟨.text, "sec"⟩]⟩]
    footComment := []
    rawNode := some exMapRaw }

/-- A small document tree: one mapping with a bool-tagged scalar entry and
no directive comments anywhere. -/
def exTree : RawNode :=
  .node .documentNode "" "" "" ""
    [.node .mappingNode "!!map" "" "" ""
      [.node .scalarNode "!!str" "foo" "" "" [] none,
       .node .scalarNode "!!bool" "true" "" "" [] none] none] none

/-- A sequence raw node with two scalar elements carrying their own comment
text, and comment text of its own. -/
def exSeqRaw : RawNode :=
  .node .sequenceNode "!!seq" "" "ph" "pf"
    [.node .scalarNode "!!str" "x" "ch1" "cf1" [] none,
     .node .scalarNode "!!str" "y" "ch2" "cf2" [] none] none

/-! # Theorems -/

/-! ## Path parser lemmas -/

theorem strMk_data (s : String) : String.mk s.data = s := by
  cases s
  rfl

theorem isDigit_digitChar {d : Nat} (h : d < 10) :
    (Nat.digitChar d).isDigit = true := by
  interval_cases d <;> decide

theorem digitVal_digitChar {d : Nat} (h : d < 10) :
    digitVal (Nat.digitChar d) = d := by
  interval_cases d <;> decide

theorem runP_name_run (l : List Char) (hl : ∀ c ∈ l, isNameChar c = true)
    (acc cs : List Char) :
    runP (l ++ cs) (.inName acc) = runP cs (.inName (acc ++ l)) := by
  induction l generalizing acc with
  | nil => simp
  | cons c l ih =>
    have hc : isNameChar c = true := hl c (List.mem_cons_self c l)
    have hrest : ∀ x ∈ l, isNameChar x = true := fun x hx =>
      hl x (List.mem_cons_of_mem c hx)
    rw [List.cons_append]
    simp only [runP, hc, if_true]
    rw [ih hrest]
    simp

theorem runP_digit_run : ∀ fuel n, n < fuel → ∀ (acc : Option Nat) (cs : List Char),
    runP (toDigitsAux fuel n ++ cs) (.inIndex acc) =
      runP cs (.inIndex (some (acc.getD 0 * 10 ^ (toDigitsAux fuel n).length + n))) := by
  intro fuel
  induction fuel with
  | zero => intro n h; omega
  | succ fuel ih =>
    intro n h acc cs
    by_cases h10 : n < 10
    · simp only [toDigitsAux, if_pos h10, List.cons_append, List.nil_append]
      simp only [runP, isDigit_digitChar h10, if_true, digitVal_digitChar h10,
        List.length_cons, List.length_nil]
      have harith : 10 * acc.getD 0 + n = acc.getD 0 * 10 ^ (0 + 1) + n := by
        ring_nf
      rw [harith]
    · have hn0 : 0 < n := by omega
      have hdiv : n / 10 < fuel := by
        have := Nat.div_lt_self hn0 (by omega : 1 < 10)
        omega
      simp only [toDigitsAux, if_neg h10]
      rw [List.append_assoc, List.cons_append, List.nil_append]
      rw [ih (n / 10) hdiv acc (Nat.digitChar (n % 10) :: cs)]
      have hm : n % 10 < 10 := Nat.mod_lt _ (by omega)
      simp only [runP, isDigit_digitChar hm, if_true, digitVal_digitChar hm,
        Option.getD_some, List.length_append, List.length_cons, List.length_nil]
      have harith : 10 * (acc.getD 0 * 10 ^ (toDigitsAux fuel (n / 10)).length + n / 10)
          + n % 10
          = acc.getD 0 * 10 ^ ((toDigitsAux fuel (n / 10)).length + (0 + 1)) + n := by
        rw [pow_add, pow_one, ← mul_assoc]
        have hgen : ∀ K : Nat, 10 * (K + n / 10) + n % 10 = K * 10 + n := by
          intro K
          omega
        exact hgen _
      rw [harith]

theorem runP_inName_boundary (acc cs : List Char)
    (h : cs = [] ∨ (∃ t, cs = '.' :: t) ∨ (∃ t, cs = '[' :: t)) :
    runP cs (.inName acc) =
      (.stringPathComponent (String.mk acc) :: (runP cs .afterSeg).1,
        (runP cs .afterSeg).2) := by
  rcases h with rfl | ⟨t, rfl⟩ | ⟨t, rfl⟩
  · rfl
  · simp [runP, show isNameChar '.' = false from by decide]
  · simp [runP, show isNameChar '[' = false from by decide]

theorem renderFrom_false_shape (p : Path) :
    (Path.renderFrom false p).data = [] ∨
      (∃ t, (Path.renderFrom false p).data = '.' :: t) ∨
      (∃ t, (Path.renderFrom false p).data = '[' :: t) := by
  cases p with
  | nil => left; rfl
  | cons comp rest =>
    cases comp with
    | stringPathComponent name =>
      right; left
      exact ⟨(name ++ Path.renderFrom false rest).data, by
        simp [Path.renderFrom, String.data_append]⟩
    | indexPathComponent i =>
      right; right
      exact ⟨(String.mk (natChars i) ++ ("]" ++ Path.renderFrom false rest)).data, by
        simp [Path.renderFrom, String.data_append]⟩

theorem validPath_tail {comp : PathComponent} {rest : Path}
    (hv : validPath (comp :: rest) = true) : validPath rest = true := by
  simp only [validPath, List.all_cons, Bool.and_eq_true] at hv ⊢
  exact hv.2

theorem runP_dot_afterSeg (cs : List Char) :
    runP ('.' :: cs) .afterSeg = runP cs .expectName := by
  simp +decide [runP]

theorem runP_lbracket_afterSeg (cs : List Char) :
    runP ('[' :: cs) .afterSeg = runP cs (.inIndex none) := by
  simp +decide [runP]

theorem runP_lbracket_start (cs : List Char) :
    runP ('[' :: cs) .start = runP cs (.inIndex none) := by
  simp +decide [runP]

theorem runP_nameChar_start {c : Char} (hc : isNameChar c = true) (cs : List Char) :
    runP (c :: cs) .start = runP cs (.inName [c]) := by
  simp [runP, hc]

theorem runP_nameChar_expectName {c : Char} (hc : isNameChar c = true)
    (cs : List Char) :
    runP (c :: cs) .expectName = runP cs (.inName [c]) := by
  simp [runP, hc]

theorem runP_rbracket_inIndex (v : Nat) (cs : List Char) :
    runP (']' :: cs) (.inIndex (some v)) =
      (.indexPathComponent v :: (runP cs .afterSeg).1, (runP cs .afterSeg).2) := by
  simp +decide [runP]

theorem validPath_head_name {name : String} {rest : Path}
    (hv : validPath (.stringPathComponent name :: rest) = true) :
    (!name.data.isEmpty) = true ∧ name.data.all isNameChar = true := by
  simp only [validPath, List.all_cons, Bool.and_eq_true] at hv
  exact hv.1

theorem runP_renderFrom (p : Path) (hv : validPath p = true) :
    runP (Path.renderFrom false p).data .afterSeg = (p, false) := by
  induction p with
  | nil => rfl
  | cons comp rest ih =>
    have hv2 : validPath rest = true := validPath_tail hv
    cases comp with
    | stringPathComponent name =>
      have hname := validPath_head_name hv
      have hdata : (Path.renderFrom false (.stringPathComponent name :: rest)).data
          = '.' :: (name.data ++ (Path.renderFrom false rest).data) := by
        simp [Path.renderFrom, String.data_append]
      rw [hdata, runP_dot_afterSeg]
      have hall : ∀ x ∈ name.data, isNameChar x = true := by
        intro x hx
        have h2 := hname.2
        rw [List.all_eq_true] at h2
        exact h2 x hx
      cases hd : name.data with
      | nil => rw [hd] at hname; simp at hname
      | cons c l =>
        rw [hd] at hall
        have hc : isNameChar c = true := hall c (List.mem_cons_self c l)
        have hl : ∀ x ∈ l, isNameChar x = true := fun x hx =>
          hall x (List.mem_cons_of_mem c hx)
        rw [List.cons_append, runP_nameChar_expectName hc]
        rw [runP_name_run l hl [c] (Path.renderFrom false rest).data]
        rw [runP_inName_boundary _ _ (renderFrom_false_shape rest)]
        rw [ih hv2]
        have hmk : String.mk ([c] ++ l) = name := by
          rw [List.singleton_append, ← hd]
        rw [hmk]
    | indexPathComponent i =>
      have hdata : (Path.renderFrom false (.indexPathComponent i :: rest)).data
          = '[' :: (natChars i ++ (']' :: (Path.renderFrom false rest).data)) := by
        simp [Path.renderFrom, String.data_append]
      rw [hdata, runP_lbracket_afterSeg]
      rw [show natChars i = toDigitsAux (i + 1) i from rfl]
      rw [runP_digit_run (i + 1) i (by omega) none
        (']' :: (Path.renderFrom false rest).data)]
      simp only [Option.getD_none, Nat.zero_mul, Nat.zero_add]
      rw [runP_rbracket_inIndex, ih hv2]

/-- C9: parsing the canonical rendering of a valid path (each property step
nonempty and made of name characters, so each component renders
unambiguously) returns the original path with no error, and parsing the
empty string returns the empty path with no error. -/
theorem claimC9 (p : Path) (hv : validPath p = true) :
    ParsePath (Path.render p) = (p, false) ∧ ParsePath "" = ([], false) := by
  refine ⟨?_, rfl⟩
  cases p with
  | nil => rfl
  | cons comp rest =>
    have hv2 : validPath rest = true := validPath_tail hv
    cases comp with
    | stringPathComponent name =>
      have hname := validPath_head_name hv
      have hdata : (Path.render (.stringPathComponent name :: rest)).data
          = name.data ++ (Path.renderFrom false rest).data := by
        simp [Path.render, Path.renderFrom, String.data_append]
      show runP (Path.render (.stringPathComponent name :: rest)).data .start = _
      rw [hdata]
      have hall : ∀ x ∈ name.data, isNameChar x = true := by
        intro x hx
        have h2 := hname.2
        rw [List.all_eq_true] at h2
        exact h2 x hx
      cases hd : name.data with
      | nil => rw [hd] at hname; simp at hname
      | cons c l =>
        rw [hd] at hall
        have hc : isNameChar c = true := hall c (List.mem_cons_self c l)
        have hl : ∀ x ∈ l, isNameChar x = true := fun x hx =>
          hall x (List.mem_cons_of_mem c hx)
        rw [List.cons_append, runP_nameChar_start hc]
        rw [runP_name_run l hl [c] (Path.renderFrom false rest).data]
        rw [runP_inName_boundary _ _ (renderFrom_false_shape rest)]
        rw [runP_renderFrom rest hv2]
        have hmk : String.mk ([c] ++ l) = name := by
          rw [List.singleton_append, ← hd]
        rw [hmk]
    | indexPathComponent i =>
      have hdata : (Path.render (.indexPathComponent i :: rest)).data
          = '[' :: (natChars i ++ (']' :: (Path.renderFrom false rest).data)) := by
        simp [Path.render, Path.renderFrom, String.data_append]
      show runP (Path.render (.indexPathComponent i :: rest)).data .start = _
      rw [hdata, runP_lbracket_start]
      rw [show natChars i = toDigitsAux (i + 1) i from rfl]
      rw [runP_digit_run (i + 1) i (by omega) none
        (']' :: (Path.renderFrom false rest).data)]
      simp only [Option.getD_none, Nat.zero_mul, Nat.zero_add]
      rw [runP_rbracket_inIndex, runP_renderFrom rest hv2]

/-- Witness for C9 at the concrete path foo[10].bar. -/
theorem claimC9_witness :
    validPath [.stringPathComponent "foo", .indexPathComponent 10,
      .stringPathComponent "bar"] = true ∧
    ParsePath (Path.render [.stringPathComponent "foo", .indexPathComponent 10,
      .stringPathComponent "bar"]) =
      ([.stringPathComponent "foo", .indexPathComponent 10,
        .stringPathComponent "bar"], false) ∧
    ParsePath "" = ([], false) := by
  refine ⟨by decide, ?_, ?_⟩
  · exact (claimC9 _ (by decide)).1
  · exact (claimC9 [] (by decide)).2

/-- C8: parsing "foo[0]aa" — a path string whose character 'a' after the
index segment matches neither grammar rule — fails with a syntax error and
still returns the partial result [PropertyStep "foo", IndexStep 0], as the
source test TestParsePath requires. -/
theorem claimC8 :
    ParsePath "foo[0]aa" =
      ([.stringPathComponent "foo", .indexPathComponent 0], true) := by
  decide

/-! ## End-node classification and type/default inference -/

/-- The loadStep callback never returns an error. -/
theorem loadStep_err_none (n : Node) (doc : Document) :
    (loadStep n doc).2 = none := by
  by_cases h1 : Tags.GetBool (Comments.pop n.headComments).1.tags TagIgnore = true
  · simp [loadStep, h1]
  · by_cases h2 : isEndNode n (Comments.pop n.headComments).1 = true
    · simp [loadStep, h1, h2]
    · simp [loadStep, h1, h2]

/-- C5: end-node classification follows the fixed priority order (first
match wins): a document node is never an end node; a scalar always is; a
docs:property directive makes any non-document non-scalar node an end node
regardless of shape; an empty mapping or sequence is an end node; every
other node (non-empty mapping or sequence, alias) is not — and the walk
does not descend past a node whose popped directive comment classifies it
as an end node. -/
theorem claimC5 (n : Node) (r : RawNode) (c : Comment)
    (hr : n.rawNode = some r) :
    (r.kind = .documentNode → isEndNode n c = false) ∧
    (r.kind = .scalarNode → isEndNode n c = true) ∧
    (r.kind ≠ .documentNode → r.kind ≠ .scalarNode →
      Tags.GetBool c.tags TagProperty = true → isEndNode n c = true) ∧
    (r.kind = .mappingNode → Tags.GetBool c.tags TagProperty = false →
      isEndNode n c = r.content.isEmpty) ∧
    (r.kind = .sequenceNode → Tags.GetBool c.tags TagProperty = false →
      isEndNode n c = r.content.isEmpty) ∧
    (r.kind = .aliasNode → Tags.GetBool c.tags TagProperty = false →
      isEndNode n c = false) ∧
    (∀ doc, isEndNode n ((Comments.pop n.headComments).1) = true →
      walk n.path n.headComments n.footComment r loadStep doc =
        ((loadStep n doc).1.2, none)) := by
  have hn : (⟨n.path, n.headComments, n.footComment, some r⟩ : Node) = n := by
    rw [← hr]
  refine ⟨?_, ?_, ?_, ?_, ?_, ?_, ?_⟩
  · intro hk
    simp [isEndNode, hr, hk]
  · intro hk
    simp [isEndNode, hr, hk]
  · intro hk1 hk2 hp
    simp [isEndNode, hr, hk1, hk2, hp]
  · intro hk hp
    simp [isEndNode, hr, hk, hp]
  · intro hk hp
    have hk1 : r.kind ≠ .documentNode := by rw [hk]; intro hcon; cases hcon
    have hk2 : r.kind ≠ .scalarNode := by rw [hk]; intro hcon; cases hcon
    have hk3 : r.kind ≠ .mappingNode := by rw [hk]; intro hcon; cases hcon
    simp [isEndNode, hr, hk, hp, hk1, hk2, hk3]
  · intro hk hp
    simp [isEndNode, hr, hk, hp]
  · intro doc hend
    have hstop : (loadStep n doc).1.1 = true := by
      by_cases h1 : Tags.GetBool (Comments.pop n.headComments).1.tags TagIgnore = true
      · simp [loadStep, h1]
      · simp [loadStep, h1, hend]
    rw [walk, hn]
    have hrepr : loadStep n doc =
        ((true, (loadStep n doc).1.2), none) := by
      have he := loadStep_err_none n doc
      have h1 : (loadStep n doc) = ((loadStep n doc).1, (loadStep n doc).2) := rfl
      rw [h1, he, ← hstop]
    rw [hrepr]

/-- Witness for C5 at a concrete non-empty mapping node with a
docs:property comment. -/
theorem claimC5_witness :
    (({ rawNode := some exMapRaw } : Node).rawNode = some exMapRaw) ∧
    (exMapRaw.kind ≠ .documentNode ∧ exMapRaw.kind ≠ .scalarNode ∧
      Tags.GetBool (⟨⟨[("docs:property", "")]⟩, []⟩ : Comment).tags TagProperty = true ∧
      isEndNode { rawNode := some exMapRaw } ⟨⟨[("docs:property", "")]⟩, []⟩ = true) := by
  refine ⟨rfl, by decide, by decide, by decide, ?_⟩
  exact (claimC5 { rawNode := some exMapRaw } exMapRaw
    ⟨⟨[("docs:property", "")]⟩, []⟩ rfl).2.2.1 (by decide) (by decide) (by decide)

/-- C7: an explicit nonempty docs:type value is the property type and an
explicit nonempty docs:default value is the default, for any node shape;
otherwise the type is inferred from the raw node's resolved tag by the
fixed table (with unknown for a missing raw node or any other tag), and the
default is the raw node's decoded value re-encoded canonically and trimmed
of surrounding whitespace. -/
theorem claimC7 (n : Node) (c : Comment) :
    (Tags.GetString c.tags TagType ≠ "" →
      getTypeOf n c = Tags.GetString c.tags TagType) ∧
    (Tags.GetString c.tags TagDefault ≠ "" →
      getDefaultValue n c = Tags.GetString c.tags TagDefault) ∧
    (Tags.GetString c.tags TagType = "" →
      (n.rawNode = none → getTypeOf n c = "unknown") ∧
      (∀ r, n.rawNode = some r →
        getTypeOf n c =
          if r.shortTag = "!!bool" then "bool"
          else if r.shortTag = "!!str" then "string"
          else if r.shortTag = "!!int" then "number"
          else if r.shortTag = "!!float" then "number"
          else if r.shortTag = "!!timestamp" then "timestamp"
          else if r.shortTag = "!!seq" then "array"
          else if r.shortTag = "!!map" then "object"
          else "unknown")) ∧
    (Tags.GetString c.tags TagDefault = "" →
      ∀ r, n.rawNode = some r →
        getDefaultValue n c = strTrim (yamlReencode r)) := by
  refine ⟨?_, ?_, ?_, ?_⟩
  · intro h
    simp [getTypeOf, h]
  · intro h
    simp [getDefaultValue, h]
  · intro h
    constructor
    · intro hn
      simp [getTypeOf, h, hn]
    · intro r hn
      simp only [getTypeOf, h, ne_eq, not_true_eq_false, if_false, hn]
      split
      · rename_i heq
        simp [heq]
      · rename_i heq
        simp [heq]
      · rename_i heq
        simp [heq]
      · rename_i heq
        simp [heq]
      · rename_i heq
        simp [heq]
      · rename_i heq
        simp [heq]
      · rename_i heq
        simp [heq]
      · rename_i h1 h2 h3 h4 h5 h6 h7
        rw [if_neg h1, if_neg h2, if_neg h3, if_neg h4, if_neg h5, if_neg h6,
          if_neg h7]
  · intro h r hn
    simp [getDefaultValue, h, hn]

/-- Witness for C7 at a concrete scalar node with explicit docs:type and at
the same node without tags. -/
theorem claimC7_witness :
    (Tags.GetString (⟨⟨[("docs:type", "object")]⟩, []⟩ : Comment).tags TagType ≠ "" ∧
      getTypeOf { rawNode := some exMapRaw } ⟨⟨[("docs:type", "object")]⟩, []⟩ =
        Tags.GetString (⟨⟨[("docs:type", "object")]⟩, []⟩ : Comment).tags TagType) ∧
    (Tags.GetString (⟨⟨[]⟩, []⟩ : Comment).tags TagDefault = "" ∧
      ({ rawNode := some exMapRaw } : Node).rawNode = some exMapRaw ∧
      getDefaultValue { rawNode := some exMapRaw } ⟨⟨[]⟩, []⟩ =
        strTrim (yamlReencode exMapRaw)) := by
  refine ⟨⟨by decide, ?_⟩, by decide, rfl, ?_⟩
  · exact (claimC7 { rawNode := some exMapRaw } ⟨⟨[("docs:type", "object")]⟩, []⟩).1
      (by decide)
  · exact (claimC7 { rawNode := some exMapRaw } ⟨⟨[]⟩, []⟩).2.2.2 (by decide)
      exMapRaw rfl

/-! ## Child construction and descent -/

theorem walkSeq_eq_walkList (l : List RawNode) : ∀ (p : Path) (h f : String)
    (fn : Node → Document → (Bool × Document) × Option String) (i : Nat)
    (doc : Document),
    walkSeq p h f fn i l doc = walkList (walkNode fn) (seqChildren p h f i l) doc := by
  induction l with
  | nil => intro p h f fn i doc; rfl
  | cons c cs ih =>
    intro p h f fn i doc
    simp only [walkSeq, seqChildren, walkList, walkNode]
    cases hw : walk (Path.withIndex p i) (ParseComment h) (ParseComment f) c fn doc with
    | mk d e =>
      cases e with
      | none => exact ih p h f fn (i + 1) d
      | some err => rfl

theorem walkMap_eq_walkList (p : Path)
    (fn : Node → Document → (Bool × Document) × Option String) :
    ∀ (l : List RawNode) (doc : Document),
    walkMap p fn l doc = walkList (walkNode fn) (mapChildren p l) doc
  | [], _ => rfl
  | [_], _ => rfl
  | keyNode :: valueNode :: rest, doc => by
    simp only [walkMap, mapChildren, walkList, walkNode]
    cases hw : walk (Path.withProperty p keyNode.value)
        (ParseComment keyNode.headComment) (ParseComment keyNode.footComment)
        valueNode fn doc with
    | mk d e =>
      cases e with
      | none => exact walkMap_eq_walkList p fn rest d
      | some err => rfl

theorem walkDoc_eq_walkList (p : Path)
    (fn : Node → Document → (Bool × Document) × Option String) :
    ∀ (l : List RawNode) (doc : Document),
    walkDoc p fn l doc = walkList (walkNode fn) (docChildren p l) doc
  | [], _ => rfl
  | c :: cs, doc => by
    simp only [walkDoc, docChildren, walkList, walkNode]
    cases hw : walk p (ParseComment c.headComment) (ParseComment c.footComment)
        c fn doc with
    | mk d e =>
      cases e with
      | none => exact walkDoc_eq_walkList p fn cs d
      | some err => rfl

theorem seqChildren_map_rawNode (l : List RawNode) : ∀ (p : Path) (h f : String)
    (i : Nat), (seqChildren p h f i l).map Node.rawNode = l.map some := by
  induction l with
  | nil => intro p h f i; rfl
  | cons c cs ih =>
    intro p h f i
    simp only [seqChildren, List.map_cons, List.cons.injEq]
    exact ⟨trivial, ih p h f (i + 1)⟩

theorem seqChildren_comments (l : List RawNode) : ∀ (p : Path) (h f : String)
    (i : Nat) (c : Node), c ∈ seqChildren p h f i l →
    c.headComments = ParseComment h ∧ c.footComment = ParseComment f := by
  induction l with
  | nil => intro p h f i c hc; cases hc
  | cons x xs ih =>
    intro p h f i c hc
    cases hc with
    | head => exact ⟨rfl, rfl⟩
    | tail _ hmem => exact ih p h f (i + 1) c hmem

theorem seqChildren_comments_indep (l : List RawNode) : ∀ (l2 : List RawNode)
    (p : Path) (h f : String) (i : Nat), l.length = l2.length →
    (seqChildren p h f i l).map Node.headComments =
      (seqChildren p h f i l2).map Node.headComments ∧
    (seqChildren p h f i l).map Node.footComment =
      (seqChildren p h f i l2).map Node.footComment := by
  induction l with
  | nil =>
    intro l2 p h f i hlen
    cases l2 with
    | nil => exact ⟨rfl, rfl⟩
    | cons _ _ => simp at hlen
  | cons x xs ih =>
    intro l2 p h f i hlen
    cases l2 with
    | nil => simp at hlen
    | cons y ys =>
      simp only [List.length_cons, Nat.succ.injEq] at hlen
      have hih := ih ys p h f (i + 1) hlen
      simp only [seqChildren, List.map_cons, List.cons.injEq]
      exact ⟨⟨trivial, hih.1⟩, ⟨trivial, hih.2⟩⟩

theorem mapChildren_headComments : ∀ (l : List RawNode) (p : Path),
    (mapChildren p l).map Node.headComments =
      (mapPairKeys l).map (fun k => ParseComment k.headComment) ∧
    (mapChildren p l).map Node.footComment =
      (mapPairKeys l).map (fun k => ParseComment k.footComment)
  | [], _ => ⟨rfl, rfl⟩
  | [_], _ => ⟨rfl, rfl⟩
  | keyNode :: valueNode :: rest, p => by
    have hih := mapChildren_headComments rest p
    simp only [mapChildren, mapPairKeys, List.map_cons, List.cons.injEq]
    exact ⟨⟨trivial, hih.1⟩, ⟨trivial, hih.2⟩⟩

/-- C10: when the walker descends into a sequence node, every element's
child Node carries head and foot comments parsed from the sequence node's
own comment text — the same comments for every element, unaffected by the
elements' own comment fields — and the walk visits exactly these child
nodes; mapping children instead carry their key node's comments. -/
theorem claimC10 :
    (∀ (n : Node) (r : RawNode), n.rawNode = some r → r.kind = .sequenceNode →
      childNodes n = seqChildren n.path r.headComment r.footComment 0 r.content ∧
      (childNodes n).map Node.rawNode = r.content.map some ∧
      (∀ c ∈ childNodes n, c.headComments = ParseComment r.headComment ∧
        c.footComment = ParseComment r.footComment)) ∧
    (∀ (p : Path) (h f : String)
      (fn : Node → Document → (Bool × Document) × Option String) (i : Nat)
      (l : List RawNode) (doc : Document),
      walkSeq p h f fn i l doc = walkList (walkNode fn) (seqChildren p h f i l) doc) ∧
    (∀ (l l2 : List RawNode) (p : Path) (h f : String) (i : Nat),
      l.length = l2.length →
      (seqChildren p h f i l).map Node.headComments =
        (seqChildren p h f i l2).map Node.headComments ∧
      (seqChildren p h f i l).map Node.footComment =
        (seqChildren p h f i l2).map Node.footComment) ∧
    (∀ (n : Node) (r : RawNode), n.rawNode = some r → r.kind = .mappingNode →
      childNodes n = mapChildren n.path r.content ∧
      (childNodes n).map Node.headComments =
        (mapPairKeys r.content).map (fun k => ParseComment k.headComment) ∧
      (childNodes n).map Node.footComment =
        (mapPairKeys r.content).map (fun k => ParseComment k.footComment)) ∧
    (∀ (p : Path) (fn : Node → Document → (Bool × Document) × Option String)
      (l : List RawNode) (doc : Document),
      walkMap p fn l doc = walkList (walkNode fn) (mapChildren p l) doc) := by
  refine ⟨?_, fun p h f fn i l doc => walkSeq_eq_walkList l p h f fn i doc,
    fun l l2 p h f i hlen => seqChildren_comments_indep l l2 p h f i hlen,
    ?_, fun p fn l doc => walkMap_eq_walkList p fn l doc⟩
  · intro n r hr hk
    have hc : childNodes n = seqChildren n.path r.headComment r.footComment 0 r.content := by
      simp [childNodes, hr, hk]
    refine ⟨hc, ?_, ?_⟩
    · rw [hc]; exact seqChildren_map_rawNode r.content n.path r.headComment r.footComment 0
    · intro c hcmem
      rw [hc] at hcmem
      exact seqChildren_comments r.content n.path r.headComment r.footComment 0 c hcmem
  · intro n r hr hk
    have hc : childNodes n = mapChildren n.path r.content := by
      simp [childNodes, hr, hk]
    refine ⟨hc, ?_, ?_⟩
    · rw [hc]; exact (mapChildren_headComments r.content n.path).1
    · rw [hc]; exact (mapChildren_headComments r.content n.path).2

/-- Witness for C10 at a concrete two-element sequence whose elements carry
their own (different) comment text. -/
theorem claimC10_witness :
    (({ rawNode := some exSeqRaw } : Node).rawNode = some exSeqRaw) ∧
    exSeqRaw.kind = .sequenceNode ∧
    (childNodes { rawNode := some exSeqRaw }).map Node.rawNode =
      exSeqRaw.content.map some ∧
    (∀ c ∈ childNodes { rawNode := some exSeqRaw },
      c.headComments = ParseComment "ph" ∧ c.footComment = ParseComment "pf") := by
  have h := (claimC10.1 { rawNode := some exSeqRaw } exSeqRaw rfl rfl)
  exact ⟨rfl, rfl, h.2.1, h.2.2⟩

/-! ## The docs:ignore directive -/

/-- C6: when a node's popped directive comment carries docs:ignore as
boolean true, the walk over that node changes the document only by
processing the forwarded comments — the remaining head comments and then
the foot comments, both keyed to the parent path — and emits no property
for the node or any descendant (it does not descend at all), with no
error. -/
theorem claimC6 (n : Node) (r : RawNode) (doc : Document)
    (hr : n.rawNode = some r)
    (hig : Tags.GetBool (Comments.pop n.headComments).1.tags TagIgnore = true) :
    walk n.path n.headComments n.footComment r loadStep doc =
      (parseCommentsOntoDocument (Path.parent n.path)
        (parseCommentsOntoDocument (Path.parent n.path) doc
          (Comments.pop n.headComments).2) n.footComment, none) := by
  have hn : (⟨n.path, n.headComments, n.footComment, some r⟩ : Node) = n := by
    rw [← hr]
  rw [walk, hn]
  simp [loadStep, hig]

/-- Witness for C6 at a concrete ignored mapping node whose remaining head
comment carries a docs:section directive. -/
theorem claimC6_witness :
    exIgnoreNode.rawNode = some exMapRaw ∧
    Tags.GetBool (Comments.pop exIgnoreNode.headComments).1.tags TagIgnore = true ∧
    walk exIgnoreNode.path exIgnoreNode.headComments exIgnoreNode.footComment
      exMapRaw loadStep ⟨[{}]⟩ =
      (parseCommentsOntoDocument (Path.parent exIgnoreNode.path)
        (parseCommentsOntoDocument (Path.parent exIgnoreNode.path) ⟨[{}]⟩
          (Comments.pop exIgnoreNode.headComments).2) exIgnoreNode.footComment,
       none) := by
  exact ⟨rfl, by decide, claimC6 exIgnoreNode exMapRaw ⟨[{}]⟩ rfl (by decide)⟩

/-! ## Synthetic properties: code-segment selection and naming -/

theorem codeIdx_foldl_enumFrom (secs : List CommentSection) :
    ∀ (k : Nat) (acc : Option Nat),
    (List.enumFrom k secs).foldl
        (fun acc is => if is.2.type = .code then some is.1 else acc) acc =
      match lastCodeIdxSpec secs with
      | some i => some (k + i)
      | none => acc := by
  induction secs with
  | nil => intro k acc; rfl
  | cons s rest ih =>
    intro k acc
    rw [show List.enumFrom k (s :: rest) = (k, s) :: List.enumFrom (k + 1) rest from rfl]
    rw [List.foldl_cons]
    rw [ih (k + 1) _]
    cases hc : lastCodeIdxSpec rest with
    | some i =>
      simp only [lastCodeIdxSpec, hc]
      have : k + 1 + i = k + (i + 1) := by omega
      rw [this]
    | none =>
      by_cases h : s.type = .code
      · simp [lastCodeIdxSpec, hc, h]
      · simp [lastCodeIdxSpec, hc, h]

/-- C2 counterexample: for a docs:property comment whose segments are
[Code "a: 1", Text "hi", Code "b: 2"], the synthetic property is named from
the LAST code segment ("b"), and the removed segment is the last one (the
first code segment "a: 1" remains in the description), contradicting the
claim that the first code segment is used. -/
theorem claimC2_counterexample :
    (parseCommentsOntoDocument [] ⟨[{}]⟩ [exComment2]).sections =
      [{ name := ""
         description := ""
         properties := [{ name := "b"
                          description := ⟨⟨[("docs:property", "")]⟩,
                            [⟨.code, "a: 1"⟩, ⟨.text, "hi"⟩]⟩
                          type := "number"
                          default := "undefined" }] }] ∧
    "b" ≠ "a" := by
  decide

/-- C2 (amended): the comment-segment scan of the docs:property inference
records the index of the LAST Code segment of the comment (the Go loop
overwrites the recorded index on every Code segment), so the
synthetic-property inference and the segment removal use the last code
segment, not the first. -/
theorem claimC2 (secs : List CommentSection) :
    codeIdxOf secs = lastCodeIdxSpec secs := by
  rw [codeIdxOf, show secs.enum = List.enumFrom 0 secs from rfl]
  rw [codeIdx_foldl_enumFrom secs 0 none]
  cases h : lastCodeIdxSpec secs with
  | some i => simp
  | none => rfl

theorem syntheticParse_tags (path : Path) (comment : Comment) :
    (syntheticParse path comment).2.tags = comment.tags := by
  unfold syntheticParse
  split
  · rfl
  · dsimp only
    split
    · split
      · split <;> rfl
      · rfl
    · rfl

theorem syntheticParse_path (path : Path) (comment : Comment) :
    (syntheticParse path comment).1.path = [] ∨
      ∃ key, (syntheticParse path comment).1.path = Path.withProperty path key := by
  unfold syntheticParse
  split
  · left; rfl
  · dsimp only
    split
    · split
      · split
        · right
          exact ⟨_, rfl⟩
        · left; rfl
      · left; rfl
    · left; rfl

/-- C3 counterexample: a forwarded comment with docs:property=explicit.name
AND a code segment parsing as the single-key mapping foo: 1, at forwarding
path bar, produces a property named "explicit.name" — the explicit
directive value takes precedence over the code-segment key, contradicting
the claimed precedence (which would give "bar.foo"). -/
theorem claimC3_counterexample :
    (parseCommentsOntoDocument [.stringPathComponent "bar"] ⟨[{}]⟩ [exComment3]).sections =
      [{ name := ""
         description := ""
         properties := [{ name := "explicit.name"
                          description := ⟨⟨[("docs:property", "explicit.name")]⟩, []⟩
                          type := "number"
                          default := "undefined" }] }] ∧
    "explicit.name" ≠ "bar.foo" := by
  decide

/-- C3 (amended): for a forwarded docs:property comment (no docs:section),
the explicit directive value, when nonempty, takes precedence as the
property name; only when it is empty is the name the code-parsed key
appended to the forwarding path (the synthetic node's path is empty or the
forwarding path extended by the parsed key); when neither source yields a
name the property is dropped with a logged diagnostic, the document is
unchanged, and no error is possible (the assembler is a total function). -/
theorem claimC3 (path : Path) (doc : Document) (comment : Comment)
    (hsec : Tags.GetBool comment.tags TagSection = false)
    (hprop : Tags.GetBool comment.tags TagProperty = true) :
    ((syntheticParse path comment).1.path = [] ∨
      ∃ key, (syntheticParse path comment).1.path = Path.withProperty path key) ∧
    (Tags.GetString comment.tags TagProperty ≠ "" →
      commentStep path doc comment = appendPropertyLast doc
        { name := Tags.GetString comment.tags TagProperty
          description := (syntheticParse path comment).2
          type := getTypeOf (syntheticParse path comment).1 (syntheticParse path comment).2
          default := "undefined" }) ∧
    (Tags.GetString comment.tags TagProperty = "" →
      Path.render (syntheticParse path comment).1.path ≠ "" →
      commentStep path doc comment = appendPropertyLast doc
        { name := Path.render (syntheticParse path comment).1.path
          description := (syntheticParse path comment).2
          type := getTypeOf (syntheticParse path comment).1 (syntheticParse path comment).2
          default := "undefined" }) ∧
    (Tags.GetString comment.tags TagProperty = "" →
      Path.render (syntheticParse path comment).1.path = "" →
      commentStep path doc comment = doc) := by
  have htags := syntheticParse_tags path comment
  refine ⟨syntheticParse_path path comment, ?_, ?_, ?_⟩
  · intro hname
    simp [commentStep, hsec, hprop, htags, hname]
  · intro hname hpath
    simp [commentStep, hsec, hprop, htags, hname, hpath]
  · intro hname hpath
    simp [commentStep, hsec, hprop, htags, hname, hpath]

/-- Witness for C3 at the concrete comment with an explicit name and a
parseable code segment. -/
theorem claimC3_witness :
    Tags.GetBool exComment3.tags TagSection = false ∧
    Tags.GetBool exComment3.tags TagProperty = true ∧
    Tags.GetString exComment3.tags TagProperty ≠ "" ∧
    commentStep [.stringPathComponent "bar"] ⟨[{}]⟩ exComment3 =
      appendPropertyLast ⟨[{}]⟩
        { name := Tags.GetString exComment3.tags TagProperty
          description := (syntheticParse [.stringPathComponent "bar"] exComment3).2
          type := getTypeOf (syntheticParse [.stringPathComponent "bar"] exComment3).1
            (syntheticParse [.stringPathComponent "bar"] exComment3).2
          default := "undefined" } := by
  refine ⟨by decide, by decide, by decide, ?_⟩
  exact (claimC3 [.stringPathComponent "bar"] ⟨[{}]⟩ exComment3
    (by decide) (by decide)).2.1 (by decide)

/-! ## Walk induction machinery -/

theorem rawSize_node (kind : Kind) (t v h f : String) (content : List RawNode)
    (al : Option RawNode) :
    rawSize (.node kind t v h f content al) =
      1 + rawListSize content +
        (match al with
         | some x => rawSize x
         | none => 0) := by
  rw [rawSize.eq_def]

theorem rawSize_pos (r : RawNode) : 1 ≤ rawSize r := by
  cases r with
  | node kind t v h f content al =>
    rw [rawSize_node]
    cases al <;> omega

theorem rawListSize_mem : ∀ (l : List RawNode) (c : RawNode), c ∈ l →
    rawSize c ≤ rawListSize l := by
  intro l
  induction l with
  | nil => intro c hc; cases hc
  | cons x xs ih =>
    intro c hc
    cases hc with
    | head => simp [rawListSize]
    | tail _ hmem =>
      have := ih c hmem
      simp only [rawListSize]
      omega

theorem seqChildren_mem_raw : ∀ (l : List RawNode) (p : Path) (h f : String)
    (i : Nat) (c : Node), c ∈ seqChildren p h f i l →
    ∃ x, x ∈ l ∧ c.rawNode = some x := by
  intro l
  induction l with
  | nil => intro p h f i c hc; cases hc
  | cons x xs ih =>
    intro p h f i c hc
    cases hc with
    | head => exact ⟨x, List.mem_cons_self x xs, rfl⟩
    | tail _ hmem =>
      obtain ⟨y, hy, hr⟩ := ih p h f (i + 1) c hmem
      exact ⟨y, List.mem_cons_of_mem x hy, hr⟩

theorem docChildren_mem : ∀ (l : List RawNode) (p : Path) (c : Node),
    c ∈ docChildren p l →
    ∃ x, x ∈ l ∧ c.headComments = ParseComment x.headComment ∧
      c.footComment = ParseComment x.footComment ∧ c.rawNode = some x := by
  intro l
  induction l with
  | nil => intro p c hc; cases hc
  | cons x xs ih =>
    intro p c hc
    cases hc with
    | head => exact ⟨x, List.mem_cons_self x xs, rfl, rfl, rfl⟩
    | tail _ hmem =>
      obtain ⟨y, hy, h1, h2, h3⟩ := ih p c hmem
      exact ⟨y, List.mem_cons_of_mem x hy, h1, h2, h3⟩

theorem mapChildren_mem : ∀ (l : List RawNode) (p : Path) (c : Node),
    c ∈ mapChildren p l →
    ∃ kx x, kx ∈ l ∧ x ∈ l ∧ c.headComments = ParseComment kx.headComment ∧
      c.footComment = ParseComment kx.footComment ∧ c.rawNode = some x
  | [], _, _, hc => by cases hc
  | [_], _, _, hc => by cases hc
  | keyNode :: valueNode :: rest, p, c, hc => by
    cases hc with
    | head =>
      exact ⟨keyNode, valueNode, List.mem_cons_self _ _,
        List.mem_cons_of_mem _ (List.mem_cons_self _ _), rfl, rfl, rfl⟩
    | tail _ hmem =>
      obtain ⟨kx, x, hk, hx, h1, h2, h3⟩ := mapChildren_mem rest p c hmem
      exact ⟨kx, x, List.mem_cons_of_mem _ (List.mem_cons_of_mem _ hk),
        List.mem_cons_of_mem _ (List.mem_cons_of_mem _ hx), h1, h2, h3⟩

theorem childNodes_measure (n : Node) (c : Node) (hc : c ∈ childNodes n) :
    nodeMeasure c < nodeMeasure n := by
  cases hn : n.rawNode with
  | none => simp [childNodes, hn] at hc
  | some r =>
    cases r with
    | node kind t v h f content al =>
      cases kind with
      | sequenceNode =>
        simp only [childNodes, hn, RawNode.kind, RawNode.headComment,
          RawNode.footComment, RawNode.content] at hc
        obtain ⟨x, hx, hr⟩ := seqChildren_mem_raw _ _ _ _ _ _ hc
        have h1 := rawListSize_mem content x hx
        have h2 : nodeMeasure c = rawSize x := by simp [nodeMeasure, hr]
        have h3 : nodeMeasure n = rawSize (.node .sequenceNode t v h f content al) := by
          simp [nodeMeasure, hn]
        rw [h2, h3, rawSize_node]
        cases al <;> [omega; (have h5 := rawSize_pos x; omega)]
      | mappingNode =>
        simp only [childNodes, hn, RawNode.kind, RawNode.content] at hc
        obtain ⟨kx, x, hk, hx, _, _, hr⟩ := mapChildren_mem _ _ _ hc
        have h1 := rawListSize_mem content x hx
        have h2 : nodeMeasure c = rawSize x := by simp [nodeMeasure, hr]
        have h3 : nodeMeasure n = rawSize (.node .mappingNode t v h f content al) := by
          simp [nodeMeasure, hn]
        rw [h2, h3, rawSize_node]
        cases al <;> [omega; (have h5 := rawSize_pos x; omega)]
      | documentNode =>
        simp only [childNodes, hn, RawNode.kind, RawNode.content] at hc
        obtain ⟨x, hx, _, _, hr⟩ := docChildren_mem _ _ _ hc
        have h1 := rawListSize_mem content x hx
        have h2 : nodeMeasure c = rawSize x := by simp [nodeMeasure, hr]
        have h3 : nodeMeasure n = rawSize (.node .documentNode t v h f content al) := by
          simp [nodeMeasure, hn]
        rw [h2, h3, rawSize_node]
        cases al <;> [omega; (have h5 := rawSize_pos x; omega)]
      | scalarNode =>
        simp only [childNodes, hn, RawNode.kind] at hc
        cases hc
      | aliasNode =>
        simp only [childNodes, hn, RawNode.kind, aliasChildren,
          RawNode.aliasTarget, RawNode.headComment, RawNode.footComment] at hc
        cases al with
        | none => simp at hc
        | some tgt =>
          simp only [List.mem_singleton] at hc
          subst hc
          have h2 : nodeMeasure n =
              rawSize (.node .aliasNode t v h f content (some tgt)) := by
            simp [nodeMeasure, hn]
          have h3 : nodeMeasure
              (⟨n.path, ParseComment h, ParseComment f, some tgt⟩ : Node) =
              rawSize tgt := by
            simp [nodeMeasure]
          rw [h3, h2, rawSize_node]
          dsimp only
          omega

theorem walk_eq (p : Path) (heads foot : Comments) (r : RawNode)
    (fn : Node → Document → (Bool × Document) × Option String)
    (doc : Document) :
    walk p heads foot r fn doc =
      match fn ⟨p, heads, foot, some r⟩ doc with
      | ((_, d), some e) => (d, some e)
      | ((true, d), none) => (d, none)
      | ((false, d), none) =>
        walkList (walkNode fn) (childNodes ⟨p, heads, foot, some r⟩) d := by
  rw [walk]
  cases hfn : fn ⟨p, heads, foot, some r⟩ doc with
  | mk bd e =>
    cases bd with
    | mk stop d =>
      cases e with
      | some err => cases stop <;> rfl
      | none =>
        cases stop with
        | true => rfl
        | false =>
          dsimp only
          cases r with
          | node kind t v h f content al =>
            cases kind with
            | sequenceNode =>
              simp only [childNodes, RawNode.kind, RawNode.headComment,
                RawNode.footComment, RawNode.content]
              exact walkSeq_eq_walkList content p h f fn 0 d
            | mappingNode =>
              simp only [childNodes, RawNode.kind, RawNode.content]
              exact walkMap_eq_walkList p fn content d
            | documentNode =>
              simp only [childNodes, RawNode.kind, RawNode.content]
              exact walkDoc_eq_walkList p fn content d
            | scalarNode =>
              simp [childNodes, RawNode.kind, walkList]
            | aliasNode =>
              simp only [childNodes, RawNode.kind, aliasChildren,
                RawNode.aliasTarget, RawNode.headComment, RawNode.footComment]
              cases al with
              | none => simp [walkList]
              | some tgt =>
                cases hw : walk p (ParseComment h) (ParseComment f) tgt fn d with
                | mk d2 e2 =>
                  cases e2 with
                  | none => simp [walkList, walkNode, hw]
                  | some err => simp [walkList, walkNode, hw]

/-- The master preservation lemma for the Load walk: any reflexive
transitive document relation that every loadStep call respects (under a
node invariant preserved by child construction) is respected by the whole
walk, which moreover never produces an error. -/
theorem walk_preserve (Q : Node → Prop) (R : Document → Document → Prop)
    (hrefl : ∀ d, R d d)
    (htrans : ∀ a b c, R a b → R b c → R a c)
    (hQchild : ∀ n, Q n → ∀ c ∈ childNodes n, Q c)
    (hstep : ∀ n d, Q n → R d ((loadStep n d).1.2)) :
    ∀ (k : Nat) (n : Node) (doc : Document), nodeMeasure n ≤ k → Q n →
      (walkNode loadStep n doc).2 = none ∧
        R doc (walkNode loadStep n doc).1 := by
  intro k
  induction k using Nat.strong_induction_on with
  | _ k ih =>
    intro n doc hk hQ
    cases hn : n.rawNode with
    | none =>
      constructor
      · simp [walkNode, hn]
      · simp only [walkNode, hn]
        exact hrefl doc
    | some r =>
      have hwn : walkNode loadStep n doc =
          walk n.path n.headComments n.footComment r loadStep doc := by
        simp [walkNode, hn]
      have hne : (⟨n.path, n.headComments, n.footComment, some r⟩ : Node) = n := by
        rw [← hn]
      rw [hwn, walk_eq, hne]
      cases hl : loadStep n doc with
      | mk bd e =>
        have he : e = none := by
          have h2 := loadStep_err_none n doc
          rw [hl] at h2
          exact h2
        subst he
        cases bd with
        | mk stop d1 =>
          have hRd1 : R doc d1 := by
            have h2 := hstep n doc hQ
            rw [hl] at h2
            exact h2
          cases stop with
          | true => exact ⟨rfl, hRd1⟩
          | false =>
            suffices hlist : ∀ (l : List Node), (∀ c ∈ l, c ∈ childNodes n) →
                ∀ d, (walkList (walkNode loadStep) l d).2 = none ∧
                  R d (walkList (walkNode loadStep) l d).1 by
              have h2 := hlist (childNodes n) (fun c hc => hc) d1
              exact ⟨h2.1, htrans _ _ _ hRd1 h2.2⟩
            intro l
            induction l with
            | nil => intro _ d; exact ⟨rfl, hrefl d⟩
            | cons c cs ihl =>
              intro hsub d
              have hcmem : c ∈ childNodes n := hsub c (List.mem_cons_self c cs)
              have hQc : Q c := hQchild n hQ c hcmem
              have hclt : nodeMeasure c < nodeMeasure n := childNodes_measure n c hcmem
              have hmn : nodeMeasure n = rawSize r := by
                simp [nodeMeasure, hn]
              have hwalk := ih (nodeMeasure c) (by omega) c d (Nat.le_refl _) hQc
              cases hw : walkNode loadStep c d with
              | mk d2 e2 =>
                have he2 : e2 = none := by rw [hw] at hwalk; exact hwalk.1
                subst he2
                have hRd2 : R d d2 := by rw [hw] at hwalk; exact hwalk.2
                simp only [walkList, hw]
                have h3 := ihl (fun x hx => hsub x (List.mem_cons_of_mem c hx)) d2
                exact ⟨h3.1, htrans _ _ _ hRd2 h3.2⟩

/-! ## Section bookkeeping lemmas -/

theorem modifyLast_length (f : Section → Section) :
    ∀ l : List Section, (modifyLast f l).length = l.length
  | [] => rfl
  | [_] => rfl
  | s :: s2 :: rest => by
    have h := modifyLast_length f (s2 :: rest)
    simp only [modifyLast, List.length_cons] at h ⊢
    omega

theorem modifyLast_get? (f : Section → Section) :
    ∀ (l : List Section) (i : Nat), i + 1 < l.length →
      (modifyLast f l).get? i = l.get? i
  | [], i, h => by simp at h
  | [_], i, h => by simp at h
  | s :: s2 :: rest, 0, _ => rfl
  | s :: s2 :: rest, i + 1, h => by
    have h2 : i + 1 < (s2 :: rest).length := by
      simp only [List.length_cons] at h ⊢
      omega
    have := modifyLast_get? f (s2 :: rest) i h2
    simpa [modifyLast] using this

theorem appendPropertyLast_length (doc : Document) (p : Property) :
    (appendPropertyLast doc p).sections.length = doc.sections.length :=
  modifyLast_length _ doc.sections

theorem appendPropertyLast_get? (doc : Document) (p : Property) (i : Nat)
    (h : i + 1 < doc.sections.length) :
    (appendPropertyLast doc p).sections.get? i = doc.sections.get? i :=
  modifyLast_get? _ doc.sections i h

theorem commentStep_R13 (path : Path) (d : Document) (comment : Comment) :
    d.sections.length ≤ (commentStep path d comment).sections.length ∧
      ∀ i, i + 1 < d.sections.length →
        (commentStep path d comment).sections.get? i = d.sections.get? i := by
  by_cases hs : Tags.GetBool comment.tags TagSection = true
  · constructor
    · simp only [commentStep, hs, if_true]
      simp
    · intro i hi
      simp only [commentStep, hs, if_true]
      exact List.get?_append (by omega)
  · by_cases hp : Tags.GetBool comment.tags TagProperty = true
    · simp only [commentStep, hs, hp, if_true, Bool.false_eq_true, if_false]
      by_cases hn0 : Tags.GetString (syntheticParse path comment).2.tags
          TagProperty = ""
      · by_cases hrn : Path.render (syntheticParse path comment).1.path = ""
        · simp only [hn0, hrn, if_true]
          exact ⟨Nat.le_refl _, fun i _ => trivial⟩
        · simp only [hn0, hrn, if_true, if_false]
          exact ⟨Nat.le_of_eq (appendPropertyLast_length _ _).symm,
            fun i hi => appendPropertyLast_get? _ _ i hi⟩
      · simp only [hn0, if_false]
        exact ⟨Nat.le_of_eq (appendPropertyLast_length _ _).symm,
          fun i hi => appendPropertyLast_get? _ _ i hi⟩
    · simp only [commentStep, hs, hp, Bool.false_eq_true, if_false]
      exact ⟨Nat.le_refl _, fun i _ => trivial⟩

theorem parseComments_R13 (cs : Comments) : ∀ (path : Path) (d : Document),
    d.sections.length ≤ (parseCommentsOntoDocument path d cs).sections.length ∧
      ∀ i, i + 1 < d.sections.length →
        (parseCommentsOntoDocument path d cs).sections.get? i = d.sections.get? i := by
  induction cs with
  | nil => intro path d; exact ⟨Nat.le_refl _, fun i _ => rfl⟩
  | cons c rest ih =>
    intro path d
    have h1 := commentStep_R13 path d c
    have h2 := ih path (commentStep path d c)
    rw [show parseCommentsOntoDocument path d (c :: rest) =
      parseCommentsOntoDocument path (commentStep path d c) rest from rfl]
    constructor
    · exact Nat.le_trans h1.1 h2.1
    · intro i hi
      have hi2 : i + 1 < (commentStep path d c).sections.length := by
        have := h1.1
        omega
      rw [h2.2 i hi2, h1.2 i hi]

theorem loadStep_R13 (n : Node) (d : Document) :
    d.sections.length ≤ ((loadStep n d).1.2).sections.length ∧
      ∀ i, i + 1 < d.sections.length →
        ((loadStep n d).1.2).sections.get? i = d.sections.get? i := by
  have hcomp : ∀ (d1 d2 d3 : Document),
      (d1.sections.length ≤ d2.sections.length ∧
        ∀ i, i + 1 < d1.sections.length → d2.sections.get? i = d1.sections.get? i) →
      (d2.sections.length ≤ d3.sections.length ∧
        ∀ i, i + 1 < d2.sections.length → d3.sections.get? i = d2.sections.get? i) →
      (d1.sections.length ≤ d3.sections.length ∧
        ∀ i, i + 1 < d1.sections.length → d3.sections.get? i = d1.sections.get? i) := by
    intro d1 d2 d3 h12 h23
    refine ⟨Nat.le_trans h12.1 h23.1, fun i hi => ?_⟩
    have hi2 : i + 1 < d2.sections.length := by
      have := h12.1
      omega
    rw [h23.2 i hi2, h12.2 i hi]
  by_cases h1 : Tags.GetBool (Comments.pop n.headComments).1.tags TagIgnore = true
  · simp only [loadStep, h1, if_true]
    exact hcomp _ _ _ (parseComments_R13 _ _ _) (parseComments_R13 _ _ _)
  · by_cases h2 : isEndNode n (Comments.pop n.headComments).1 = true
    · simp only [loadStep, h1, h2, Bool.not_true, if_false, Bool.false_eq_true]
      exact hcomp _ _ _ (parseComments_R13 _ _ _)
        (hcomp _ _ _
          ⟨Nat.le_of_eq (appendPropertyLast_length _ _).symm,
            fun i hi => appendPropertyLast_get? _ _ i hi⟩
          (parseComments_R13 _ _ _))
    · simp only [loadStep, h1, h2, Bool.not_false, if_true, Bool.false_eq_true]
      exact hcomp _ _ _ (parseComments_R13 _ _ _)
        (hcomp _ _ _ (parseComments_R13 _ _ _) (parseComments_R13 _ _ _))

/-! ## Section-free step lemmas -/

theorem commentStep_noSec_len (path : Path) (d : Document) (comment : Comment)
    (hs : Tags.GetBool comment.tags TagSection = false) :
    (commentStep path d comment).sections.length = d.sections.length := by
  have hs2 : ¬ Tags.GetBool comment.tags TagSection = true := by
    rw [hs]
    exact Bool.false_ne_true
  by_cases hp : Tags.GetBool comment.tags TagProperty = true
  · simp only [commentStep, hs2, hp, if_true, Bool.false_eq_true, if_false]
    by_cases hn0 : Tags.GetString (syntheticParse path comment).2.tags
        TagProperty = ""
    · by_cases hrn : Path.render (syntheticParse path comment).1.path = ""
      · simp only [hn0, hrn, if_true]
      · simp only [hn0, hrn, if_true, if_false]
        exact appendPropertyLast_length _ _
    · simp only [hn0, if_false]
      exact appendPropertyLast_length _ _
  · simp [commentStep, hs2, hp]

theorem commentsNoSec_cons {c : Comment} {cs : Comments}
    (h : commentsNoSec (c :: cs) = true) :
    Tags.GetBool c.tags TagSection = false ∧ commentsNoSec cs = true := by
  simp only [commentsNoSec, List.all_cons, Bool.and_eq_true, Bool.not_eq_true'] at h
  exact ⟨h.1, h.2⟩

theorem parseComments_noSec_len (cs : Comments) : ∀ (path : Path) (d : Document),
    commentsNoSec cs = true →
    (parseCommentsOntoDocument path d cs).sections.length = d.sections.length := by
  induction cs with
  | nil => intro path d _; rfl
  | cons c rest ih =>
    intro path d h
    obtain ⟨h1, h2⟩ := commentsNoSec_cons h
    rw [show parseCommentsOntoDocument path d (c :: rest) =
      parseCommentsOntoDocument path (commentStep path d c) rest from rfl]
    rw [ih path _ h2, commentStep_noSec_len path d c h1]

theorem commentsNoSec_pop {cs : Comments} (h : commentsNoSec cs = true) :
    Tags.GetBool (Comments.pop cs).1.tags TagSection = false ∧
      commentsNoSec (Comments.pop cs).2 = true := by
  cases cs with
  | nil => exact ⟨by decide, by decide⟩
  | cons c rest => exact commentsNoSec_cons h

theorem nodeNoSec_parts {n : Node} (h : nodeNoSec n = true) :
    commentsNoSec n.headComments = true ∧ commentsNoSec n.footComment = true ∧
      ∀ r, n.rawNode = some r → rawNoSec r = true := by
  simp only [nodeNoSec, Bool.and_eq_true] at h
  refine ⟨h.1.1, h.1.2, fun r hr => ?_⟩
  have h2 := h.2
  rw [hr] at h2
  exact h2

theorem loadStep_noSec_len (n : Node) (d : Document) (hn : nodeNoSec n = true) :
    ((loadStep n d).1.2).sections.length = d.sections.length := by
  obtain ⟨hh, hf, _⟩ := nodeNoSec_parts hn
  obtain ⟨hpop1, hpop2⟩ := commentsNoSec_pop hh
  have hsingle : commentsNoSec [(Comments.pop n.headComments).1] = true := by
    simp [commentsNoSec, hpop1]
  by_cases h1 : Tags.GetBool (Comments.pop n.headComments).1.tags TagIgnore = true
  · simp only [loadStep, h1, if_true]
    rw [parseComments_noSec_len _ _ _ hf, parseComments_noSec_len _ _ _ hpop2]
  · by_cases h2 : isEndNode n (Comments.pop n.headComments).1 = true
    · simp only [loadStep, h1, h2, Bool.not_true, Bool.false_eq_true, if_false]
      rw [parseComments_noSec_len _ _ _ hf, appendPropertyLast_length,
        parseComments_noSec_len _ _ _ hpop2]
    · have hstep : (loadStep n d).1.2 =
          parseCommentsOntoDocument (Path.parent n.path)
            (parseCommentsOntoDocument (Path.parent n.path)
              (parseCommentsOntoDocument (Path.parent n.path) d
                (Comments.pop n.headComments).2)
              [(Comments.pop n.headComments).1]) n.footComment := by
        simp [loadStep, h1, h2]
      rw [hstep, parseComments_noSec_len _ _ _ hf,
        parseComments_noSec_len _ _ _ hsingle,
        parseComments_noSec_len _ _ _ hpop2]

theorem rawNoSec_node (kind : Kind) (t v h f : String) (content : List RawNode)
    (al : Option RawNode) :
    rawNoSec (.node kind t v h f content al) =
      (commentsNoSec (ParseComment h) && commentsNoSec (ParseComment f) &&
        rawListNoSec content &&
        (match al with
         | some x => rawNoSec x
         | none => true)) := by
  rw [rawNoSec.eq_def]

theorem rawListNoSec_cons (c : RawNode) (cs : List RawNode) :
    rawListNoSec (c :: cs) = (rawNoSec c && rawListNoSec cs) := by
  rw [rawListNoSec.eq_def]

theorem rawListNoSec_mem : ∀ (l : List RawNode) (x : RawNode),
    rawListNoSec l = true → x ∈ l → rawNoSec x = true := by
  intro l
  induction l with
  | nil => intro x _ hx; cases hx
  | cons c cs ih =>
    intro x hl hx
    rw [rawListNoSec_cons, Bool.and_eq_true] at hl
    cases hx with
    | head => exact hl.1
    | tail _ hmem => exact ih x hl.2 hmem

theorem rawNoSec_fields {r : RawNode} (h : rawNoSec r = true) :
    commentsNoSec (ParseComment r.headComment) = true ∧
      commentsNoSec (ParseComment r.footComment) = true ∧
      rawListNoSec r.content = true ∧
      ∀ t, r.aliasTarget = some t → rawNoSec t = true := by
  cases r with
  | node kind tg v hh ff content al =>
    rw [rawNoSec_node, Bool.and_eq_true, Bool.and_eq_true, Bool.and_eq_true] at h
    refine ⟨h.1.1.1, h.1.1.2, h.1.2, fun t ht => ?_⟩
    have h2 := h.2
    simp only [RawNode.aliasTarget] at ht
    rw [ht] at h2
    exact h2

theorem nodeNoSec_of_fields (c : Node)
    (hh : commentsNoSec c.headComments = true)
    (hf : commentsNoSec c.footComment = true)
    (hr : ∀ x, c.rawNode = some x → rawNoSec x = true) :
    nodeNoSec c = true := by
  simp only [nodeNoSec, Bool.and_eq_true]
  refine ⟨⟨hh, hf⟩, ?_⟩
  cases hrn : c.rawNode with
  | none => rfl
  | some x => exact hr x hrn

theorem childNoSec (n : Node) (hn : nodeNoSec n = true) :
    ∀ c ∈ childNodes n, nodeNoSec c = true := by
  intro c hc
  cases hrn : n.rawNode with
  | none => rw [childNodes, hrn] at hc; cases hc
  | some r =>
    have hraw : rawNoSec r = true := (nodeNoSec_parts hn).2.2 r hrn
    obtain ⟨hph, hpf, hcont, hal⟩ := rawNoSec_fields hraw
    cases r with
    | node kind t v h f content al =>
      simp only [RawNode.headComment, RawNode.footComment, RawNode.content,
        RawNode.aliasTarget] at hph hpf hcont hal
      cases kind with
      | sequenceNode =>
        simp only [childNodes, hrn, RawNode.kind, RawNode.headComment,
          RawNode.footComment, RawNode.content] at hc
        obtain ⟨hch, hcf⟩ := seqChildren_comments _ _ _ _ _ _ hc
        obtain ⟨x, hx, hcr⟩ := seqChildren_mem_raw _ _ _ _ _ _ hc
        refine nodeNoSec_of_fields c (by rw [hch]; exact hph)
          (by rw [hcf]; exact hpf) fun y hy => ?_
        rw [hcr] at hy
        cases hy
        exact rawListNoSec_mem content x hcont hx
      | mappingNode =>
        simp only [childNodes, hrn, RawNode.kind, RawNode.content] at hc
        obtain ⟨kx, x, hk, hx, hch, hcf, hcr⟩ := mapChildren_mem _ _ _ hc
        have hkraw := rawListNoSec_mem content kx hcont hk
        obtain ⟨hkh, hkf, _, _⟩ := rawNoSec_fields hkraw
        refine nodeNoSec_of_fields c (by rw [hch]; exact hkh)
          (by rw [hcf]; exact hkf) fun y hy => ?_
        rw [hcr] at hy
        cases hy
        exact rawListNoSec_mem content x hcont hx
      | documentNode =>
        simp only [childNodes, hrn, RawNode.kind, RawNode.content] at hc
        obtain ⟨x, hx, hch, hcf, hcr⟩ := docChildren_mem _ _ _ hc
        have hxraw := rawListNoSec_mem content x hcont hx
        obtain ⟨hxh, hxf, _, _⟩ := rawNoSec_fields hxraw
        refine nodeNoSec_of_fields c (by rw [hch]; exact hxh)
          (by rw [hcf]; exact hxf) fun y hy => ?_
        rw [hcr] at hy
        cases hy
        exact hxraw
      | scalarNode =>
        simp only [childNodes, hrn, RawNode.kind] at hc
        cases hc
      | aliasNode =>
        simp only [childNodes, hrn, RawNode.kind, aliasChildren,
          RawNode.aliasTarget, RawNode.headComment, RawNode.footComment] at hc
        cases al with
        | none => simp at hc
        | some tgt =>
          simp only [List.mem_singleton] at hc
          subst hc
          exact nodeNoSec_of_fields _ hph hpf fun y hy => by
            cases hy
            exact hal tgt rfl

/-- C4: the built Document always has at least one section (the implicit
root created before the walk); a tree none of whose comments carries a
docs:section directive yields exactly one section, which therefore holds
all discovered properties in discovery order; and the walk never changes
any section other than the most recently opened one (so every property is
appended to the last section). -/
theorem claimC4 (root : RawNode) :
    1 ≤ (Load root).1.sections.length ∧
    (rawNoSec root = true → (Load root).1.sections.length = 1) ∧
    (∀ (p : Path) (heads foot : Comments) (r : RawNode) (doc : Document) (i : Nat),
      i + 1 < doc.sections.length →
      (walk p heads foot r loadStep doc).1.sections.get? i = doc.sections.get? i) := by
  have hLoad : Load root = walkNode loadStep
      ⟨[], ParseComment root.headComment, ParseComment root.footComment, some root⟩
      ⟨[{}]⟩ := rfl
  have hmaster13 := walk_preserve (fun _ => True)
    (fun d d' => d.sections.length ≤ d'.sections.length ∧
      ∀ i, i + 1 < d.sections.length → d'.sections.get? i = d.sections.get? i)
    (fun d => ⟨Nat.le_refl _, fun i _ => rfl⟩)
    (fun a b c hab hbc =>
      ⟨Nat.le_trans hab.1 hbc.1, fun i hi => by
        have hi2 : i + 1 < b.sections.length := by
          have := hab.1
          omega
        rw [hbc.2 i hi2, hab.2 i hi]⟩)
    (fun n _ c _ => trivial)
    (fun n d _ => loadStep_R13 n d)
  refine ⟨?_, ?_, ?_⟩
  · have h := (hmaster13 (nodeMeasure ⟨[], ParseComment root.headComment,
      ParseComment root.footComment, some root⟩) _ ⟨[{}]⟩ (Nat.le_refl _) trivial).2.1
    rw [hLoad]
    exact h
  · intro hns
    have hmaster2 := walk_preserve (fun n => nodeNoSec n = true)
      (fun d d' => d'.sections.length = d.sections.length)
      (fun d => rfl)
      (fun a b c hab hbc => hbc.trans hab)
      childNoSec
      (fun n d hq => loadStep_noSec_len n d hq)
    have hroot : nodeNoSec ⟨[], ParseComment root.headComment,
        ParseComment root.footComment, some root⟩ = true := by
      obtain ⟨h1, h2, _, _⟩ := rawNoSec_fields hns
      exact nodeNoSec_of_fields _ h1 h2 fun y hy => by
        cases hy
        exact hns
    have h := (hmaster2 (nodeMeasure ⟨[], ParseComment root.headComment,
      ParseComment root.footComment, some root⟩) _ ⟨[{}]⟩ (Nat.le_refl _) hroot).2
    rw [hLoad]
    exact h
  · intro p heads foot r doc i hi
    have h := (hmaster13 (nodeMeasure ⟨p, heads, foot, some r⟩)
      ⟨p, heads, foot, some r⟩ doc (Nat.le_refl _) trivial).2.2 i hi
    exact h

/-- Witness for C4: the section-free example tree yields one section, and
prefix stability holds at a concrete two-section document. -/
theorem claimC4_witness :
    1 ≤ (Load exTree).1.sections.length ∧
    rawNoSec exTree = true ∧
    (Load exTree).1.sections.length = 1 ∧
    (0 + 1 < (⟨[{ name := "s0" }, { name := "s1" }]⟩ : Document).sections.length ∧
      (walk [] [] [] exMapRaw loadStep
        ⟨[{ name := "s0" }, { name := "s1" }]⟩).1.sections.get? 0 =
        (⟨[{ name := "s0" }, { name := "s1" }]⟩ : Document).sections.get? 0) := by
  refine ⟨(claimC4 exTree).1, by decide, (claimC4 exTree).2.1 (by decide),
    by decide, ?_⟩
  exact (claimC4 exTree).2.2 [] [] [] exMapRaw
    ⟨[{ name := "s0" }, { name := "s1" }]⟩ 0 (by decide)

/-! ## Alias cycles -/

theorem walkG_c1_step (fuel : Nat) (p : Path) (doc : Document) :
    walkG cyclicEnv (loadStepG cyclicEnv) (fuel + 1) p [] [] 1 doc =
      walkG cyclicEnv (loadStepG cyclicEnv) fuel p [] [] 0 doc := by
  rw [walkG]
  rfl

theorem walkG_c0_step (fuel : Nat) (p : Path) (doc : Document) :
    walkG cyclicEnv (loadStepG cyclicEnv) (fuel + 1) p [] [] 0 doc =
      walkGList cyclicEnv (loadStepG cyclicEnv) fuel
        [⟨Path.withIndex p 0, [], [], some 1⟩] doc := by
  rw [walkG]
  rfl

theorem walkGList_single (fuel : Nat) (p : Path) (doc : Document) :
    walkGList cyclicEnv (loadStepG cyclicEnv) fuel
        [⟨Path.withIndex p 0, [], [], some 1⟩] doc =
      match walkG cyclicEnv (loadStepG cyclicEnv) fuel (Path.withIndex p 0)
          [] [] 1 doc with
      | none => none
      | some (d, some e) => some (d, some e)
      | some (d, none) => some (d, none) := by
  rw [walkGList.eq_def]
  dsimp only
  cases hw : walkG cyclicEnv (loadStepG cyclicEnv) fuel (Path.withIndex p 0)
      [] [] 1 doc with
  | none => rfl
  | some pr =>
    cases pr with
    | mk d e =>
      cases e with
      | none =>
        dsimp only
        rw [walkGList.eq_def]
      | some err => rfl

/-- C1: on the cyclic alias graph produced by the source `a: &a [*a]` (a
sequence whose single element is an alias whose target is the sequence
itself), the walk with Load's callback never returns within any fuel bound
— it neither terminates nor produces any error, so no structural error is
raised or propagated, contrary to the claim. -/
theorem claimC1 : ∀ (fuel : Nat) (p : Path) (doc : Document),
    walkG cyclicEnv (loadStepG cyclicEnv) fuel p [] [] 0 doc = none ∧
    walkG cyclicEnv (loadStepG cyclicEnv) fuel p [] [] 1 doc = none := by
  intro fuel
  induction fuel with
  | zero =>
    intro p doc
    exact ⟨by simp [walkG], by simp [walkG]⟩
  | succ fuel ih =>
    intro p doc
    constructor
    · rw [walkG_c0_step, walkGList_single, (ih (Path.withIndex p 0) doc).2]
    · rw [walkG_c1_step]
      exact (ih p doc).1

end HelmDocgen
